import Mathlib

/-!
# Petals Around The Rose (`src/src/petals.c`)

A shallow embedding of the dice reader `READ_DIE`, the scorer `answer`, the
renderer `render` and the driver (`play_petals`, `main`) of `petals.c`, with the
properties the specification states about them.

Conventions of the embedding.

* `Cup` is C's `uint64_t`: a natural number below `2 ^ 64`.  Theorems take the
  cup as a natural number and carry the bound as a hypothesis.
* C's `int` values are Lean integers.  A function returns `none` exactly when the
  C code would run into undefined behaviour on the way (a shift count outside
  `[0, 64)`, a signed overflow of the running sum).  Loop counters stay at most
  `n`, and a read at an index from 22 on is undefined before any counter could
  leave the range of `int`, so counter arithmetic is left unchecked.
* The text `render` sends to standard output is a list of characters.
* The driver works on a `World`: standard input is a finite list of characters
  with its end-of-file indicator, `rand()` is the sequence of the values it
  returns, standard output is the text written so far.
-/

namespace Petals

/-! ## Constants and types of the source -/

/-- `#define NUM_DICE 5`: the number of dice rolled in one round. -/
def NUM_DICE : Int := 5

/-- `#define DICE_PER_ROW 5`: the number of dice rendered per console row. -/
def DICE_PER_ROW : Int := 5

/-- `typedef uint64_t Cup;` a cup is a 64-bit unsigned word. -/
abbrev Cup := Nat

/-- Largest value of a C `int` (32 bits). -/
def INT_MAX : Int := 2147483647

/-- Smallest value of a C `int` (32 bits). -/
def INT_MIN : Int := -2147483648

/-- The result of a signed `int` operation: defined only inside the range of `int`. -/
def checkInt (x : Int) : Option Int :=
  if INT_MIN ≤ x ∧ x ≤ INT_MAX then some x else none

/-! ## `READ_DIE` -/

/-- `#define READ_DIE( c, i ) ((int)((((c) >> 3*(i))%6) + 1))`.

`3*(i)` is an `int`; shifting a `uint64_t` is defined only for a count in
`[0, 64)`.  The shifted word is reduced modulo 6 and incremented in `uint64_t`
arithmetic (the value is at most 6, so the cast to `int` keeps it). -/
def READ_DIE (c : Cup) (i : Int) : Option Int :=
  if 0 ≤ 3 * i ∧ 3 * i < 64 then
    some (Int.ofNat ((c >>> (3 * i).toNat) % 6 + 1))
  else
    none

/-! ## `answer` -/

/-- The loop of `answer`, entered with the counter `i` and the running sum `s`:
`for( ; i<n; i++ ) { d = READ_DIE( c, i ); s += (d-1)*(d%2); }` followed by
`return s;`.  `%` on `int` is C's truncating remainder. -/
def answerLoop (c : Cup) (n : Int) (i : Int) (s : Int) : Option Int :=
  if i < n then
    match READ_DIE c i with
    | none => none
    | some d =>
      match checkInt (s + (d - 1) * (Int.tmod d 2)) with
      | none => none
      | some s1 => answerLoop c n (i + 1) s1
  else
    some s
termination_by (n - i).toNat
decreasing_by omega

/-- `int answer ( Cup c, int n )`: `s = 0; for( i=0; i<n; i++ ) ...; return s;`. -/
def answer (c : Cup) (n : Int) : Option Int :=
  answerLoop c n 0 0

/-! ## `render` -/

/-- The conversion `%5d` of `printf`: the decimal digits of `d` (with a leading
`-` when negative), right-justified in a field of width 5. -/
def fmt5d (d : Int) : List Char :=
  let s := (toString d).toList
  List.replicate (5 - s.length) ' ' ++ s

/-- `printf(" -------     ")`: the border above and beneath one die. -/
def borderSeg : List Char := " -------     ".toList

/-- First row of dots of a die showing `d`:
`printf("| %c   %c |    ", (d==1||d==3)? ' ' : '*', (d<3)? ' ' : '*')`. -/
def pipSeg1 (d : Int) : List Char :=
  "| ".toList ++ [if d = 1 ∨ d = 3 then ' ' else '*'] ++ "   ".toList ++
    [if d < 3 then ' ' else '*'] ++ " |    ".toList

/-- Second row of dots of a die showing `d`:
`printf("| %c %c %c |    ", (d==6)? '*' : ' ', (d%2)? '*' : ' ', (d==6)? '*' : ' ')`. -/
def pipSeg2 (d : Int) : List Char :=
  "| ".toList ++ [if d = 6 then '*' else ' '] ++ " ".toList ++
    [if Int.tmod d 2 ≠ 0 then '*' else ' '] ++ " ".toList ++
    [if d = 6 then '*' else ' '] ++ " |    ".toList

/-- Third row of dots of a die showing `d`:
`printf("| %c   %c |    ", (d>2)? '*' : ' ', (d==1||d==3)? ' ' : '*')`. -/
def pipSeg3 (d : Int) : List Char :=
  "| ".toList ++ [if d > 2 then '*' else ' '] ++ "   ".toList ++
    [if d = 1 ∨ d = 3 then ' ' else '*'] ++ " |    ".toList

/-- The value printed beneath a die showing `d`: `printf("%5d        ", d )`. -/
def valueSeg (d : Int) : List Char :=
  fmt5d d ++ "        ".toList

/-- One of the six inner loops of `render`, entered with the counter `i` and the
text `out` printed so far:
`for( ; i<j+DICE_PER_ROW && i<n; i++ ) { d = READ_DIE(c, i); printf(...d...); }`,
`seg d` being the text the `printf` of the body emits. -/
def dieLoop (c : Cup) (n j : Int) (seg : Int → List Char) (i : Int)
    (out : List Char) : Option (List Char) :=
  if i < j + DICE_PER_ROW ∧ i < n then
    match READ_DIE c i with
    | none => none
    | some d => dieLoop c n j seg (i + 1) (out ++ seg d)
  else
    some out
termination_by (n - i).toNat
decreasing_by omega

/-- The two border loops of `render`, which do not read the dice:
`for( ; i<j+DICE_PER_ROW && i<n; i++ ) { printf(" -------     "); }`. -/
def borderLoop (n j : Int) (i : Int) (out : List Char) : List Char :=
  if i < j + DICE_PER_ROW ∧ i < n then
    borderLoop n j (i + 1) (out ++ borderSeg)
  else
    out
termination_by (n - i).toNat
decreasing_by omega

/-- The outer loop of `render`, entered with the counter `j` and the text `out`
printed so far: `for( ; j<n; j+=DICE_PER_ROW) { ... }`. -/
def renderLoop (c : Cup) (n : Int) (j : Int) (out : List Char) : Option (List Char) :=
  if j < n then
    -- printf("\n"); top line above dice; printf("\n");
    let o1 := borderLoop n j j (out ++ "\n".toList) ++ "\n".toList
    -- first row of dots; printf("\n");
    match dieLoop c n j pipSeg1 j o1 with
    | none => none
    | some o2 =>
      -- second row of dots; printf("\n");
      match dieLoop c n j pipSeg2 j (o2 ++ "\n".toList) with
      | none => none
      | some o3 =>
        -- third row of dots; printf("\n");
        match dieLoop c n j pipSeg3 j (o3 ++ "\n".toList) with
        | none => none
        | some o4 =>
          -- bottom line beneath dice; printf("\n");
          let o5 := borderLoop n j j (o4 ++ "\n".toList) ++ "\n".toList
          -- the dice values; printf("\n\n");
          match dieLoop c n j valueSeg j o5 with
          | none => none
          | some o6 => renderLoop c n (j + DICE_PER_ROW) (o6 ++ "\n\n".toList)
  else
    some out
termination_by (n - j).toNat
decreasing_by
  unfold DICE_PER_ROW
  omega

/-- `void render ( Cup c, int n)`: the text written to standard output,
`for( j=0; j<n; j+=DICE_PER_ROW) { ... }` started on an empty output. -/
def render (c : Cup) (n : Int) : Option (List Char) :=
  renderLoop c n 0 []

/-! ## The driver: `play_petals` and `main` -/

/-- `#define ROLL 'y'`: any user input other than this signals quit. -/
def ROLL : Char := 'y'

/-- `EXIT_SUCCESS` of `<stdlib.h>`. -/
def EXIT_SUCCESS : Int := 0

/-- The state of the process the driver works on: the characters of standard
input not read yet, the end-of-file indicator of standard input, the number of
calls of `rand()` made so far, and the text written to standard output. -/
structure World where
  stdin : List Char
  eof : Bool
  rands : Nat
  out : List Char

/-- `fgetc(stdin)`: the next character of the input, or `EOF` (`none`) at the end
of the input, which sets the end-of-file indicator. -/
def fgetc (w : World) : Option Char × World :=
  match w.stdin with
  | [] => (none, { w with eof := true })
  | ch :: rest => (some ch, { w with stdin := rest })

/-- `while (fgetc(stdin) != '\n' && !feof(stdin));`: read up to and including the
next newline, or up to the end of the input. -/
def skipLine (w : World) : World :=
  if (fgetc w).1 ≠ some '\n' ∧ (fgetc w).2.eof = false then skipLine (fgetc w).2
  else (fgetc w).2
termination_by w.stdin.length
decreasing_by
  rename_i h
  revert h
  unfold fgetc
  cases w.stdin with
  | nil => simp
  | cons ch rest => simp

/-- `printf(rules, NUM_DICE)`: the text of `print_rules`, whose first and last
lines are rules of 67 characters `=`. -/
def rulesText : List Char :=
  List.replicate 67 '=' ++
  ("\n\n" ++
   "Welcome to Petals Around the Rose. In this game you will be shown\n" ++
   "the result of ").toList ++
  (toString NUM_DICE).toList ++
  (" die rolls. You will then be shown an \"answer\".\n" ++
   "Your goal is to figure out why the answer is correct for the given\n" ++
   "configuration of die rolls.\n\nGood luck!!!\n\n").toList ++
  List.replicate 67 '=' ++ "\n\n".toList

/-- `void print_rules()`. -/
def print_rules (w : World) : World :=
  { w with out := w.out ++ rulesText }

/-- `void play_petals()`: one round.  `rnd k` is the value the `k`-th call of
`rand()` returns (for the seed `main` has set), converted to `uint64_t` by the
assignment `c = rand()`.  The result is `none` when `render` or `answer` run into
undefined behaviour. -/
def play_petals (rnd : Nat → Nat) (w : World) : Option World :=
  -- c = rand();
  let c : Cup := rnd w.rands % 2 ^ 64
  let w1 := { w with rands := w.rands + 1 }
  -- render( c, NUM_DICE );
  match render c NUM_DICE with
  | none => none
  | some picture =>
    -- printf("Press Enter to reveal answer "); wait for the player
    let w2 := skipLine
      { w1 with out := w1.out ++ picture ++ "Press Enter to reveal answer ".toList }
    -- printf("The answer is: %d -- but why???\n\n", answer(c, NUM_DICE));
    match answer c NUM_DICE with
    | none => none
    | some a =>
      some { w2 with out := w2.out ++ "The answer is: ".toList ++ (toString a).toList ++
        " -- but why???\n\n".toList }

/-- The loop of `main`, entered with the value of `q` and the state of the
process: `while( q == ROLL ) { play_petals(); printf("Play again? y/n: ");
q = fgetc(stdin); while (fgetc(stdin) != '\n' && !feof(stdin)); }` followed by
`return EXIT_SUCCESS;`.  `q` is `none` when `fgetc` returned `EOF`, which
converted to `char` differs from `'y'`. -/
def mainLoop (rnd : Nat → Nat) (q : Option Char) (w : World) : Option (Int × World) :=
  if q = some ROLL then
    match hplay : play_petals rnd w with
    | none => none
    | some w1 =>
      let r := fgetc { w1 with out := w1.out ++ "Play again? y/n: ".toList }
      mainLoop rnd r.1 (skipLine r.2)
  else
    some (EXIT_SUCCESS, w)
termination_by 2 * w.stdin.length + (if q = some ROLL then 1 else 0)
decreasing_by
  rename_i hq
  -- reading never gives input back, and reading a character consumes it
  have hget : ∀ v : World, (fgetc v).2.stdin.length ≤ v.stdin.length ∧
      ((fgetc v).1 ≠ none → (fgetc v).2.stdin.length < v.stdin.length) := by
    intro v
    unfold fgetc
    cases v.stdin with
    | nil => simp
    | cons ch rest => simp
  have hskip : ∀ (k : Nat) (v : World), v.stdin.length ≤ k →
      (skipLine v).stdin.length ≤ v.stdin.length := by
    intro k
    induction k with
    | zero =>
      intro v hv
      rw [skipLine]
      split
      · rename_i hc
        have := (hget v).2 (by intro h0; rw [fgetc] at h0 hc; revert h0 hc; cases v.stdin <;> simp)
        omega
      · exact (hget v).1
    | succ k ih =>
      intro v hv
      rw [skipLine]
      split
      · rename_i hc
        have h1 := (hget v).2 (by intro h0; rw [fgetc] at h0 hc; revert h0 hc; cases v.stdin <;> simp)
        have h2 := ih (fgetc v).2 (by omega)
        omega
      · exact (hget v).1
  have hplay' : w1.stdin.length ≤ w.stdin.length := by
    unfold play_petals at hplay
    dsimp only at hplay
    split at hplay
    · exact absurd hplay (by simp)
    · split at hplay
      · exact absurd hplay (by simp)
      · have h := Option.some.inj hplay
        rw [← h]
        exact hskip _ _ (Nat.le_refl _)
  have h1 := hget { w1 with out := w1.out ++ "Play again? y/n: ".toList }
  have h2 := hskip _ (fgetc { w1 with out := w1.out ++ "Play again? y/n: ".toList }).2
    (Nat.le_refl _)
  rw [if_pos hq]
  split
  · rename_i hy
    have h3 := h1.2 (by rw [hy]; simp)
    simp only at h1 h2 h3 hplay' ⊢
    omega
  · simp only at h1 h2 hplay' ⊢
    omega

/-- `int main( int argc, char *argv[] )` on the standard input `input`:
`q = ROLL; srand(time(NULL)); print_rules(); printf("Press Enter to begin");`,
the wait for the first line, the loop, and the exit status with the final state. -/
def main (rnd : Nat → Nat) (input : List Char) : Option (Int × World) :=
  let w0 := print_rules { stdin := input, eof := false, rands := 0, out := [] }
  let w1 := skipLine { w0 with out := w0.out ++ "Press Enter to begin".toList }
  mainLoop rnd (some ROLL) w1

/-! ## Reference notions of the specification

The definitions below are not code of `petals.c`: they write down what the
specification's sentences talk about, to be compared with the program. -/

/-- The face the specification calls `face_i`, `((c >> 3i) mod 6) + 1`, written
with division by a power of two. -/
def dieFace (c : Nat) (i : Nat) : Nat :=
  c / 2 ^ (3 * i) % 6 + 1

/-- The petals of one face, by the specification's rule: `face - 1` when the face
is odd, `0` when it is even. -/
def petalsOf (face : Nat) : Nat :=
  if face % 2 = 1 then face - 1 else 0

/-- The petals of what a read returned: the face's petals, nothing for an undefined read. -/
def petalsOfRead : Option Int → Nat
  | some d => petalsOf d.toNat
  | none => 0

/-- The packing of the specification's `encode` (§4.1): the face at position `i`
is stored as `(f-1) mod 6` in bits `[3i, 3i+3)`.  The first face takes the low
three bits, the remaining faces are packed the same way three bits higher. -/
def specPack : List Nat → Nat
  | [] => 0
  | f :: fs => (f - 1) % 6 + 2 ^ 3 * specPack fs

/-- The specification's `encode` (§4.1), which the program does not have: it
packs a face sequence by `specPack`, and fails (`none`, the specification's
`InvalidInput`) when a face is outside `[1,6]` or there are more than 21 faces. -/
def specEncode (faces : List Nat) : Option Cup :=
  if faces.length ≤ 21 ∧ ∀ f ∈ faces, 1 ≤ f ∧ f ≤ 6 then some (specPack faces) else none

/-- The seven positions of the 3×3 grid a die face uses (§4.3): the first and
third rows have a left and a right position, the second row has three. -/
inductive Pip
  | topLeft | topRight | midLeft | center | midRight | botLeft | botRight
  deriving DecidableEq

/-- The pip line (1, 2 or 3) a grid position is drawn on. -/
def Pip.row : Pip → Nat
  | .topLeft | .topRight => 1
  | .midLeft | .center | .midRight => 2
  | .botLeft | .botRight => 3

/-- The column of a grid position inside the 13 characters of a die: the left
positions are the first `%c` of the format strings (column 2), the right ones
the last (column 6), the centre the middle one of the second row (column 4). -/
def Pip.col : Pip → Nat
  | .topLeft | .midLeft | .botLeft => 2
  | .center => 4
  | .topRight | .midRight | .botRight => 6

/-- The specification's table of filled positions per face (§4.3). -/
def specPips : Nat → List Pip
  | 1 => [.center]
  | 2 => [.topLeft, .botRight]
  | 3 => [.topLeft, .center, .botRight]
  | 4 => [.topLeft, .topRight, .botLeft, .botRight]
  | 5 => [.topLeft, .topRight, .center, .botLeft, .botRight]
  | 6 => [.topLeft, .topRight, .midLeft, .midRight, .botLeft, .botRight]
  | _ => []

/-- The lines of a text: the runs of characters between newlines (a text ending
in a newline has an empty last line). -/
def textLines : List Char → List (List Char)
  | [] => [[]]
  | ch :: rest =>
    if ch = '\n' then [] :: textLines rest
    else
      match textLines rest with
      | [] => [[ch]]
      | l :: ls => (ch :: l) :: ls

/-- The character of a text at a line and a column (a blank outside the text). -/
def charAt (txt : List Char) (line col : Nat) : Char :=
  ((textLines txt).getD line []).getD col ' '

/-- The character the picture shows at grid position `p` of its `k`-th die: dice
are drawn five to a group of eight lines (blank, border, three pip lines,
border, values, blank), each die 13 columns wide. -/
def pictureChar (txt : List Char) (k : Nat) (p : Pip) : Char :=
  charAt txt (8 * (k / 5) + 1 + p.row) (13 * (k % 5) + p.col)

/-- The petals the picture shows on its `k`-th die: the pips drawn around the
centre pip when the centre pip is drawn, none otherwise. -/
def petalsShown (txt : List Char) (k : Nat) : Nat :=
  if pictureChar txt k .center = '*' then
    ([Pip.topLeft, .topRight, .midLeft, .midRight, .botLeft, .botRight].filter
      (fun p => pictureChar txt k p = '*')).length
  else 0

/-- The text of one loop over the `m` dice `j, ..., j+m-1` of a group, each die
contributing the segment `seg` of its face. -/
def rowText (seg : Int → List Char) (c : Nat) (j m : Nat) : List Char :=
  (List.range m).flatMap (fun k => seg (dieFace c (j + k) : Nat))

/-- The six lines of a group of `m` dice starting at die `j`, without the blank
lines around them. -/
def groupLines (c : Nat) (j m : Nat) : List (List Char) :=
  [rowText (fun _ => borderSeg) c j m, rowText pipSeg1 c j m, rowText pipSeg2 c j m,
   rowText pipSeg3 c j m, rowText (fun _ => borderSeg) c j m, rowText valueSeg c j m]

/-- The text of a group: a blank line, the six lines and one more blank line,
each ended by a newline. -/
def groupText (c : Nat) (j m : Nat) : List Char :=
  '\n' :: (groupLines c j m).flatMap (fun l => l ++ ['\n']) ++ ['\n']

/-- A segment printer is regular when, for each face 1 to 6, it prints 13
characters none of which is a newline. -/
def RegularSeg (seg : Int → List Char) : Prop :=
  ∀ d : Nat, 1 ≤ d → d ≤ 6 → (seg (d : Int)).length = 13 ∧ '\n' ∉ seg (d : Int)

/-- The pip line `row` (1, 2 or 3) of a die showing `d`, as `render` prints it. -/
def pipSegOfRow (row : Nat) (d : Int) : List Char :=
  match row with
  | 1 => pipSeg1 d
  | 2 => pipSeg2 d
  | _ => pipSeg3 d

/-- The character `render` prints at grid position `p` of a die showing `d`. -/
def pipChar (d : Int) (p : Pip) : Char :=
  (pipSegOfRow p.row d).getD p.col ' '

/-- The eight lines of a group: a blank line, the six lines of the dice, a blank line. -/
def groupBlock (c : Nat) (j m : Nat) : List (List Char) :=
  [] :: groupLines c j m ++ [[]]

/-- The text of the picture of `n` dice: the groups of dice `5g, ..., 5g+4`
(fewer in the last group) for `g` below `⌈n/5⌉`. -/
def pictureText (c : Nat) (n : Nat) : List Char :=
  (List.range ((n + 4) / 5)).flatMap (fun g => groupText c (5 * g) (min 5 (n - 5 * g)))

/-- A cup from which `READ_DIE` reads a given face sequence: built from the last
face down, each die taking the three-bit field `b < 6` that makes the word from
its position upwards congruent to `face - 1` modulo 6. -/
def cupReading : List Nat → Nat
  | [] => 0
  | f :: fs => (f - 1 + 6 - 2 ^ 3 * cupReading fs % 6) % 6 + 2 ^ 3 * cupReading fs

/-- The segment a die showing `d` contributes to line `r` of its group, for the
six lines 1 to 6 between the blank lines: the two borders, the three pip lines
and the value line. -/
def lineSeg (r : Nat) (d : Int) : List Char :=
  match r with
  | 1 => borderSeg
  | 2 => pipSeg1 d
  | 3 => pipSeg2 d
  | 4 => pipSeg3 d
  | 5 => borderSeg
  | _ => valueSeg d

/-- What is left of a text after its first line: the characters after the first
newline, nothing when there is no newline. -/
def dropLine : List Char → List Char
  | [] => []
  | ch :: rest => if ch = '\n' then rest else dropLine rest

/-- The rounds played after the first one, read off the lines of the input that
follow the line answering "Press Enter to begin".  The lines come in pairs: the
line answering "Press Enter to reveal answer" and the line replying to
"Play again? y/n: "; one more round is played exactly when the reply starts
with `y`. -/
def extraRounds : List (List Char) → Nat
  | _ :: reply :: rest => if reply.head? = some 'y' then 1 + extraRounds rest else 0
  | _ => 0

/-- The end-of-file indicator is set only once the input is used up. -/
def World.Consistent (w : World) : Prop :=
  w.eof = true → w.stdin = []

/-! ## The reader -/

theorem dieFace_pos (c : Nat) (i : Nat) : 1 ≤ dieFace c i := by
  unfold dieFace
  omega

theorem dieFace_le (c : Nat) (i : Nat) : dieFace c i ≤ 6 := by
  unfold dieFace
  omega

/-- For a die index up to 21 the shift is defined and `READ_DIE` yields `dieFace`. -/
theorem READ_DIE_eq (c : Nat) (i : Nat) (hi : i ≤ 21) :
    READ_DIE c (i : Int) = some ((dieFace c i : Nat) : Int) := by
  unfold READ_DIE dieFace
  have h : (0 : Int) ≤ 3 * (i : Int) ∧ 3 * (i : Int) < 64 := by omega
  rw [if_pos h]
  have h2 : (3 * (i : Int)).toNat = 3 * i := by omega
  rw [h2, Nat.shiftRight_eq_div_pow]
  rfl

/-- Outside `[0, 21]` the shift count leaves `[0, 64)`: undefined behaviour. -/
theorem READ_DIE_none (c : Nat) (i : Int) (hi : i < 0 ∨ 22 ≤ i) : READ_DIE c i = none := by
  unfold READ_DIE
  have h : ¬ ((0 : Int) ≤ 3 * i ∧ 3 * i < 64) := by omega
  rw [if_neg h]

theorem petalsOf_le (d : Nat) (h : d ≤ 6) : petalsOf d ≤ 4 := by
  unfold petalsOf
  split <;> omega

/-- The summand `(d-1)*(d%2)` of `answer` is the petal count of the face `d`. -/
theorem summand_eq (d : Nat) :
    ((d : Int) - 1) * Int.tmod (d : Int) 2 = ((petalsOf d : Nat) : Int) := by
  unfold petalsOf
  rw [Int.tmod_eq_emod (by omega) (by omega)]
  rcases Nat.mod_two_eq_zero_or_one d with h | h
  · have h2 : (d : Int) % 2 = 0 := by omega
    rw [h2, if_neg (by omega)]
    simp
  · have h2 : (d : Int) % 2 = 1 := by omega
    rw [h2, if_pos h]
    have h3 : 1 ≤ d := by omega
    push_cast [Nat.cast_sub h3]
    ring

/-! ## The scorer -/

/-- The loop of `answer`, run from die `i` for `m` more dice, adds their petals
to the running sum; no read is undefined and no sum overflows. -/
theorem answerLoop_eq (c : Nat) (m : Nat) : ∀ (i : Nat) (s : Nat), i + m ≤ 22 → s ≤ 4 * i →
    answerLoop c ((i + m : Nat) : Int) (i : Int) (s : Int) =
      some (((s + ∑ k ∈ Finset.range m, petalsOf (dieFace c (i + k)) : Nat)) : Int) := by
  induction m with
  | zero =>
    intro i s _ _
    rw [answerLoop]
    simp
  | succ m ih =>
    intro i s him hs
    rw [answerLoop]
    have hlt : (i : Int) < ((i + (m + 1) : Nat) : Int) := by omega
    rw [if_pos hlt, READ_DIE_eq c i (by omega)]
    simp only
    rw [summand_eq]
    have hp := petalsOf_le (dieFace c i) (dieFace_le c i)
    have hck : checkInt ((s : Int) + ((petalsOf (dieFace c i) : Nat) : Int)) =
        some (((s + petalsOf (dieFace c i) : Nat)) : Int) := by
      unfold checkInt INT_MIN INT_MAX
      rw [if_pos (by omega)]
      simp
    rw [hck]
    simp only
    have h1 : ((i + (m + 1) : Nat) : Int) = (((i + 1) + m : Nat) : Int) := by omega
    have h2 : (i : Int) + 1 = ((i + 1 : Nat) : Int) := by omega
    rw [h1, h2, ih (i + 1) (s + petalsOf (dieFace c i)) (by omega) (by omega)]
    rw [Finset.sum_range_succ']
    congr 2
    have : ∀ k, i + 1 + k = i + (k + 1) := by intro k; omega
    simp only [this, Nat.add_zero]
    omega

/-- `answer` on up to 22 dice returns the sum of the petals of the faces read. -/
theorem answer_eq (c : Nat) (n : Nat) (hn : n ≤ 22) :
    answer c (n : Int) = some ((∑ k ∈ Finset.range n, petalsOf (dieFace c k) : Nat) : Int) := by
  have := answerLoop_eq c n 0 0 (by omega) (by omega)
  simpa [answer] using this

/-! ## The specification's packing read back by `READ_DIE` -/

theorem specPack_div (F : List Nat) : ∀ i, specPack F / 2 ^ (3 * i) = specPack (F.drop i) := by
  induction F with
  | nil => intro i; simp [specPack]
  | cons f fs ih =>
    intro i
    cases i with
    | zero => simp
    | succ i =>
      have h8 : 2 ^ (3 * (i + 1)) = 8 * 2 ^ (3 * i) := by
        rw [show 3 * (i + 1) = 3 * i + 3 by ring, pow_add]
        ring
      rw [h8, ← Nat.div_div_eq_div_mul, List.drop_succ_cons, ← ih i]
      congr 1
      simp only [specPack]
      omega

/-- The face `READ_DIE` reads at position `i` of a packed sequence: the stored
field plus eight times the packing of the dice above it, reduced modulo 6. -/
theorem dieFace_specPack (F : List Nat) (i : Nat) (hi : i < F.length) :
    dieFace (specPack F) i = ((F[i] - 1) % 6 + 8 * specPack (F.drop (i + 1))) % 6 + 1 := by
  unfold dieFace
  rw [specPack_div, List.drop_eq_getElem_cons hi]
  simp only [specPack]
  norm_num

theorem specEncode_eq (F : List Nat) (hlen : F.length ≤ 21) (hF : ∀ f ∈ F, 1 ≤ f ∧ f ≤ 6) :
    specEncode F = some (specPack F) := by
  unfold specEncode
  rw [if_pos ⟨hlen, hF⟩]

/-- A packed sequence of at most 21 faces is a 63-bit value. -/
theorem specPack_lt (F : List Nat) : specPack F < 2 ^ (3 * F.length) := by
  induction F with
  | nil => simp [specPack]
  | cons f fs ih =>
    simp only [specPack, List.length_cons]
    have h8 : 2 ^ (3 * (fs.length + 1)) = 8 * 2 ^ (3 * fs.length) := by
      rw [show 3 * (fs.length + 1) = 3 * fs.length + 3 by ring, pow_add]
      ring
    rw [h8]
    omega

theorem two_pow_mod_six (k : Nat) (hk : 1 ≤ k) : 2 ^ k % 6 = 2 ∨ 2 ^ k % 6 = 4 := by
  induction k with
  | zero => omega
  | succ k ih =>
    rcases Nat.eq_zero_or_pos k with h | h
    · subst h; simp
    · rw [pow_succ]
      rcases ih h with h2 | h2 <;> omega

/-- Two cups that agree on the low `3n` bits and whose remaining high parts are
congruent modulo 3 are read as the same faces at the positions below `n`. -/
theorem dieFace_congr (c c' : Nat) (n i : Nat) (hi : i < n)
    (hlow : c % 2 ^ (3 * n) = c' % 2 ^ (3 * n))
    (hhigh : c / 2 ^ (3 * n) % 3 = c' / 2 ^ (3 * n) % 3) :
    dieFace c i = dieFace c' i := by
  unfold dieFace
  have hsplit : (2 : Nat) ^ (3 * n) = 2 ^ (3 * i) * 2 ^ (3 * (n - i)) := by
    rw [← pow_add]
    congr 1
    omega
  have key : ∀ x : Nat, x / 2 ^ (3 * i) =
      x % 2 ^ (3 * n) / 2 ^ (3 * i) + 2 ^ (3 * (n - i)) * (x / 2 ^ (3 * n)) := by
    intro x
    rw [hsplit, Nat.mod_mul_right_div_self, ← Nat.div_div_eq_div_mul]
    exact (Nat.mod_add_div _ _).symm
  rw [key c, key c', hlow]
  have hp := two_pow_mod_six (3 * (n - i)) (by omega)
  generalize c' % 2 ^ (3 * n) / 2 ^ (3 * i) = a
  generalize c / 2 ^ (3 * n) = h at *
  generalize c' / 2 ^ (3 * n) = h' at *
  generalize 2 ^ (3 * (n - i)) = p at *
  congr 1
  rw [Nat.add_mod, Nat.mul_mod, Nat.add_mod a, Nat.mul_mod p h']
  rcases hp with hp | hp <;> rw [hp] <;> omega

theorem sum_range_eq_list_sum (f : Nat → Nat) (n : Nat) :
    ∑ k ∈ Finset.range n, f k = ((List.range n).map f).sum := by
  induction n with
  | zero => simp
  | succ n ih => rw [Finset.sum_range_succ, List.range_succ, List.map_append, List.sum_append, ih]; simp

theorem answer_eq_reads (c : Nat) (n : Nat) (hn : n ≤ 22) :
    answer c (n : Int) =
      some ((((List.range n).map (fun i : Nat => petalsOfRead (READ_DIE c (i : Int)))).sum : Nat) : Int) := by
  rw [answer_eq c n hn, sum_range_eq_list_sum]
  congr 3
  apply List.map_congr_left
  intro i hi
  rw [List.mem_range] at hi
  rw [READ_DIE_eq c i (by omega)]
  simp [petalsOfRead]

/-! ## The renderer -/

theorem rowText_succ (seg : Int → List Char) (c : Nat) (j m : Nat) :
    rowText seg c j (m + 1) = seg (dieFace c j : Nat) ++ rowText seg c (j + 1) m := by
  unfold rowText
  rw [List.range_succ_eq_map, List.flatMap_cons, List.flatMap_map]
  have h : (fun k : Nat => seg (dieFace c (j + Nat.succ k) : Nat)) =
      fun k : Nat => seg (dieFace c (j + 1 + k) : Nat) := by
    funext k
    rw [show j + Nat.succ k = j + 1 + k by omega]
  rw [h, Nat.add_zero]

/-- A loop of `render` over the dice of a group that reads the dice, run from die
`i` for the `m` dice left in the group, appends their segments to the output. -/
theorem dieLoop_eq (c : Nat) (n j : Int) (seg : Int → List Char) (m : Nat) :
    ∀ (i : Nat) (out : List Char), i + m ≤ 22 →
      ((i + m : Nat) : Int) = min (j + DICE_PER_ROW) n →
      dieLoop c n j seg (i : Int) out = some (out ++ rowText seg c i m) := by
  induction m with
  | zero =>
    intro i out _ hend
    rw [dieLoop, if_neg (by omega)]
    simp [rowText]
  | succ m ih =>
    intro i out hle hend
    rw [dieLoop, if_pos (by omega), READ_DIE_eq c i (by omega)]
    simp only
    have h2 : (i : Int) + 1 = ((i + 1 : Nat) : Int) := by omega
    rw [h2, ih (i + 1) _ (by omega) (by omega), rowText_succ, List.append_assoc]

/-- A border loop of `render`, run from die `i` for the `m` dice left in the
group, appends one border segment per die. -/
theorem borderLoop_eq (c : Nat) (n j : Int) (m : Nat) :
    ∀ (i : Nat) (out : List Char),
      ((i + m : Nat) : Int) = min (j + DICE_PER_ROW) n →
      borderLoop n j (i : Int) out = out ++ rowText (fun _ => borderSeg) c i m := by
  induction m with
  | zero =>
    intro i out hend
    rw [borderLoop, if_neg (by omega)]
    simp [rowText]
  | succ m ih =>
    intro i out hend
    rw [borderLoop, if_pos (by omega)]
    have h2 : (i : Int) + 1 = ((i + 1 : Nat) : Int) := by omega
    rw [h2, ih (i + 1) _ (by omega), rowText_succ, List.append_assoc]

/-- The outer loop of `render`, run from group `g` with `r` groups left, appends
the texts of these groups to the output. -/
theorem renderLoop_eq (c : Nat) (n : Nat) (hn : n ≤ 22) (r : Nat) :
    ∀ (g : Nat) (out : List Char), g + r = (n + 4) / 5 →
      renderLoop c (n : Int) ((5 * g : Nat) : Int) out =
        some (out ++ (List.range r).flatMap
          (fun t => groupText c (5 * (g + t)) (min 5 (n - 5 * (g + t))))) := by
  induction r with
  | zero =>
    intro g out hg
    rw [renderLoop, if_neg (by omega)]
    simp
  | succ r ih =>
    intro g out hg
    have hend : (((5 * g + min 5 (n - 5 * g) : Nat)) : Int) =
        min (((5 * g : Nat) : Int) + DICE_PER_ROW) (n : Int) := by
      unfold DICE_PER_ROW
      omega
    have hle : 5 * g + min 5 (n - 5 * g) ≤ 22 := by omega
    rw [renderLoop, if_pos (by omega)]
    simp only [borderLoop_eq c n _ _ _ _ hend, dieLoop_eq c n _ _ _ _ _ hle hend]
    have hj : ((5 * g : Nat) : Int) + DICE_PER_ROW = ((5 * (g + 1) : Nat) : Int) := by
      unfold DICE_PER_ROW
      omega
    rw [hj, ih (g + 1) _ (by omega), List.range_succ_eq_map, List.flatMap_cons,
      List.flatMap_map]
    have h : (fun t : Nat => groupText c (5 * (g + Nat.succ t)) (min 5 (n - 5 * (g + Nat.succ t)))) =
        fun t : Nat => groupText c (5 * (g + 1 + t)) (min 5 (n - 5 * (g + 1 + t))) := by
      funext t
      rw [show g + Nat.succ t = g + 1 + t by omega]
    rw [h, Nat.add_zero]
    congr 1
    rw [← List.append_assoc]
    congr 1
    simp only [groupText, groupLines, List.flatMap_cons, List.flatMap_nil,
      List.append_assoc, List.cons_append, List.nil_append, List.append_nil]
    rfl

/-- `render` on up to 22 dice prints the picture text; no read is undefined. -/
theorem render_eq (c : Nat) (n : Nat) (hn : n ≤ 22) :
    render c (n : Int) = some (pictureText c n) := by
  have h := renderLoop_eq c n hn ((n + 4) / 5) 0 [] (by omega)
  simpa [render, pictureText] using h

/-! ## Reading the picture -/

theorem textLines_line (a : List Char) (rest : List Char) (ha : '\n' ∉ a) :
    textLines (a ++ '\n' :: rest) = a :: textLines rest := by
  induction a with
  | nil => simp [textLines]
  | cons x xs ih =>
    have hx : x ≠ '\n' := by
      intro h
      exact ha (by simp [h])
    have hxs : '\n' ∉ xs := by
      intro h
      exact ha (List.mem_cons_of_mem _ h)
    rw [List.cons_append, textLines, if_neg hx, ih hxs]

theorem length_flatMap_uniform {α : Type} (f : Nat → List α) (L : Nat)
    (hL : ∀ k, (f k).length = L) (m : Nat) : ((List.range m).flatMap f).length = L * m := by
  induction m with
  | zero => simp
  | succ m ih =>
    rw [List.range_succ, List.flatMap_append, List.length_append, ih, List.flatMap_singleton, hL]
    ring

/-- In a concatenation of blocks of one length `L`, the entry at `L * b + off`
is entry `off` of block `b`. -/
theorem getD_flatMap_uniform {α : Type} (f : Nat → List α) (L : Nat)
    (hL : ∀ k, (f k).length = L) (dflt : α) (m : Nat) :
    ∀ b off, b < m → off < L →
      ((List.range m).flatMap f).getD (L * b + off) dflt = (f b).getD off dflt := by
  induction m with
  | zero => intro b off hb; omega
  | succ m ih =>
    intro b off hb hoff
    rw [List.range_succ, List.flatMap_append, List.flatMap_singleton]
    have hlen := length_flatMap_uniform f L hL m
    rcases Nat.lt_or_ge b m with h | h
    · have hlt : L * b + off < L * m := by
        calc L * b + off < L * b + L := by omega
          _ = L * (b + 1) := by ring
          _ ≤ L * m := Nat.mul_le_mul_left L h
      rw [List.getD_append _ _ _ _ (by rw [hlen]; exact hlt)]
      exact ih b off h hoff
    · have hbm : b = m := by omega
      subst hbm
      rw [List.getD_append_right _ _ _ _ (by rw [hlen]; omega), hlen]
      congr 1
      omega

theorem borderSeg_props : borderSeg.length = 13 ∧ '\n' ∉ borderSeg := by
  decide

theorem pipSeg1_props (d : Nat) (h1 : 1 ≤ d) (h6 : d ≤ 6) :
    (pipSeg1 (d : Int)).length = 13 ∧ '\n' ∉ pipSeg1 (d : Int) := by
  interval_cases d <;> decide

theorem pipSeg2_props (d : Nat) (h1 : 1 ≤ d) (h6 : d ≤ 6) :
    (pipSeg2 (d : Int)).length = 13 ∧ '\n' ∉ pipSeg2 (d : Int) := by
  interval_cases d <;> decide

theorem pipSeg3_props (d : Nat) (h1 : 1 ≤ d) (h6 : d ≤ 6) :
    (pipSeg3 (d : Int)).length = 13 ∧ '\n' ∉ pipSeg3 (d : Int) := by
  interval_cases d <;> decide

theorem valueSeg_props (d : Nat) (h1 : 1 ≤ d) (h6 : d ≤ 6) :
    (valueSeg (d : Int)).length = 13 ∧ '\n' ∉ valueSeg (d : Int) := by
  interval_cases d <;> decide

theorem rowText_no_newline (seg : Int → List Char) (hseg : RegularSeg seg) (c j m : Nat) :
    '\n' ∉ rowText seg c j m := by
  unfold rowText
  intro h
  rw [List.mem_flatMap] at h
  obtain ⟨k, _, hk⟩ := h
  exact (hseg _ (dieFace_pos c _) (dieFace_le c _)).2 hk

theorem rowText_getD (seg : Int → List Char) (hseg : RegularSeg seg) (c j m b off : Nat)
    (hb : b < m) (hoff : off < 13) :
    (rowText seg c j m).getD (13 * b + off) ' ' = (seg (dieFace c (j + b) : Nat)).getD off ' ' := by
  unfold rowText
  exact getD_flatMap_uniform (fun k => seg (dieFace c (j + k) : Nat)) 13
    (fun k => (hseg _ (dieFace_pos c _) (dieFace_le c _)).1) ' ' m b off hb hoff

theorem textLines_newline (rest : List Char) : textLines ('\n' :: rest) = [] :: textLines rest := by
  rw [textLines, if_pos rfl]

/-- The lines of a group's text followed by more text: the eight lines of the
group, then the lines of the rest. -/
theorem textLines_groupText (c j m : Nat) (rest : List Char) :
    textLines (groupText c j m ++ rest) = groupBlock c j m ++ textLines rest := by
  have hb : RegularSeg (fun _ => borderSeg) := fun _ _ _ => borderSeg_props
  have n0 := rowText_no_newline _ hb c j m
  have n1 := rowText_no_newline _ pipSeg1_props c j m
  have n2 := rowText_no_newline _ pipSeg2_props c j m
  have n3 := rowText_no_newline _ pipSeg3_props c j m
  have n4 := rowText_no_newline _ valueSeg_props c j m
  simp only [groupText, groupBlock, groupLines, List.flatMap_cons, List.flatMap_nil,
    List.append_assoc, List.cons_append, List.nil_append, List.append_nil]
  rw [textLines_newline, textLines_line _ _ n0, textLines_line _ _ n1, textLines_line _ _ n2,
    textLines_line _ _ n3, textLines_line _ _ n0, textLines_line _ _ n4, textLines_newline]

theorem textLines_groups (c : Nat) (J M : Nat → Nat) (r : Nat) : ∀ rest : List Char,
    textLines ((List.range r).flatMap (fun g => groupText c (J g) (M g)) ++ rest) =
      (List.range r).flatMap (fun g => groupBlock c (J g) (M g)) ++ textLines rest := by
  induction r with
  | zero => intro rest; simp
  | succ r ih =>
    intro rest
    rw [List.range_succ, List.flatMap_append, List.flatMap_append, List.flatMap_singleton,
      List.flatMap_singleton, List.append_assoc, ih, textLines_groupText, List.append_assoc]

/-- The lines of the picture: the eight lines of each group, and the empty line
after the last newline. -/
theorem textLines_pictureText (c n : Nat) :
    textLines (pictureText c n) =
      (List.range ((n + 4) / 5)).flatMap
        (fun g => groupBlock c (5 * g) (min 5 (n - 5 * g))) ++ [[]] := by
  have h := textLines_groups c (fun g => 5 * g) (fun g => min 5 (n - 5 * g)) ((n + 4) / 5) []
  rw [List.append_nil] at h
  rw [pictureText, h]
  rfl

/-- Line `8g + r` of the picture is line `r` of the block of group `g`. -/
theorem pictureText_line (c n g r : Nat) (hg : g < (n + 4) / 5) (hr : r < 8) :
    (textLines (pictureText c n)).getD (8 * g + r) [] =
      (groupBlock c (5 * g) (min 5 (n - 5 * g))).getD r [] := by
  have hL : ∀ k, (groupBlock c (5 * k) (min 5 (n - 5 * k))).length = 8 := fun _ => rfl
  rw [textLines_pictureText, List.getD_append _ _ _ _
    (by rw [length_flatMap_uniform _ 8 hL]; omega)]
  exact getD_flatMap_uniform _ 8 hL [] _ g r hg hr

theorem pipSegOfRow_regular (row : Nat) : RegularSeg (pipSegOfRow row) := by
  intro d h1 h6
  unfold pipSegOfRow
  split
  · exact pipSeg1_props d h1 h6
  · exact pipSeg2_props d h1 h6
  · exact pipSeg3_props d h1 h6

/-- The picture shows, at grid position `p` of its `k`-th die, the character the
pip line of `p` has at the column of `p` for the face of die `k`. -/
theorem pictureChar_pictureText (c n k : Nat) (hk : k < n) (p : Pip) :
    pictureChar (pictureText c n) k p = pipChar (dieFace c k : Nat) p := by
  unfold pictureChar charAt pipChar
  have hg : k / 5 < (n + 4) / 5 := by omega
  have hrow : 1 ≤ p.row ∧ p.row ≤ 3 := by cases p <;> decide
  have hcol : p.col < 13 := by cases p <;> decide
  rw [Nat.add_assoc, pictureText_line c n (k / 5) (1 + p.row) hg (by omega)]
  have hline : (groupBlock c (5 * (k / 5)) (min 5 (n - 5 * (k / 5)))).getD (1 + p.row) [] =
      rowText (pipSegOfRow p.row) c (5 * (k / 5)) (min 5 (n - 5 * (k / 5))) := by
    cases p <;> rfl
  rw [hline, rowText_getD _ (pipSegOfRow_regular p.row) c _ _ (k % 5) p.col (by omega) hcol]
  rw [Nat.div_add_mod]

theorem petalsShown_pictureText (c n k : Nat) (hk : k < n) :
    petalsShown (pictureText c n) k = petalsOf (dieFace c k) := by
  unfold petalsShown
  simp only [pictureChar_pictureText c n k hk]
  have h1 := dieFace_pos c k
  have h6 := dieFace_le c k
  generalize dieFace c k = d at h1 h6
  interval_cases d <;> decide

/-! ## Bounds and counts of the score -/

theorem petalsOf_even (d : Nat) (h : 1 ≤ d) : petalsOf d % 2 = 0 := by
  unfold petalsOf
  split <;> omega

/-- On the faces 1 to 6 the petals are 2 for a three, 4 for a five, 0 otherwise. -/
theorem petalsOf_three_five (d : Nat) (h1 : 1 ≤ d) (h6 : d ≤ 6) :
    petalsOf d = 2 * (if d = 3 then 1 else 0) + 4 * (if d = 5 then 1 else 0) := by
  interval_cases d <;> decide

theorem sum_petals_le (c : Nat) (n : Nat) :
    ∑ k ∈ Finset.range n, petalsOf (dieFace c k) ≤ 4 * n := by
  induction n with
  | zero => simp
  | succ n ih =>
    rw [Finset.sum_range_succ]
    have := petalsOf_le (dieFace c n) (dieFace_le c n)
    omega

theorem sum_petals_even (c : Nat) (n : Nat) :
    (∑ k ∈ Finset.range n, petalsOf (dieFace c k)) % 2 = 0 := by
  induction n with
  | zero => simp
  | succ n ih =>
    rw [Finset.sum_range_succ]
    have := petalsOf_even (dieFace c n) (dieFace_pos c n)
    omega

theorem sum_petals_count (c : Nat) (n : Nat) :
    ∑ k ∈ Finset.range n, petalsOf (dieFace c k) =
      2 * ((Finset.range n).filter (fun k => dieFace c k = 3)).card +
      4 * ((Finset.range n).filter (fun k => dieFace c k = 5)).card := by
  rw [Finset.card_filter, Finset.card_filter, Finset.mul_sum, Finset.mul_sum,
    ← Finset.sum_add_distrib]
  apply Finset.sum_congr rfl
  intro k _
  exact petalsOf_three_five _ (dieFace_pos c k) (dieFace_le c k)

/-! ## Die counts beyond the cup -/

/-- With 23 dice or more the loop of `answer` reaches die 22, whose read shifts
the cup by 66 bits: undefined behaviour. -/
theorem answerLoop_undefined (c : Nat) (n : Int) (hn : 23 ≤ n) (m : Nat) :
    ∀ (i s : Nat), i + m = 22 → s ≤ 4 * i → answerLoop c n (i : Int) (s : Int) = none := by
  induction m with
  | zero =>
    intro i s hi _
    rw [answerLoop, if_pos (by omega), READ_DIE_none c (i : Int) (by omega)]
  | succ m ih =>
    intro i s hi hs
    rw [answerLoop, if_pos (by omega), READ_DIE_eq c i (by omega)]
    simp only
    rw [summand_eq]
    have hp := petalsOf_le (dieFace c i) (dieFace_le c i)
    have hck : checkInt ((s : Int) + ((petalsOf (dieFace c i) : Nat) : Int)) =
        some (((s + petalsOf (dieFace c i) : Nat)) : Int) := by
      unfold checkInt INT_MIN INT_MAX
      rw [if_pos (by omega)]
      simp
    rw [hck]
    simp only
    have h2 : (i : Int) + 1 = ((i + 1 : Nat) : Int) := by omega
    rw [h2]
    exact ih (i + 1) _ (by omega) (by omega)

/-- In the group of the dice 20 to 24 a loop that reads the dice reaches die 22
when there are 23 dice or more: undefined behaviour. -/
theorem dieLoop_undefined (c : Nat) (n j : Int) (seg : Int → List Char) (hn : 23 ≤ n)
    (hj : 22 < j + DICE_PER_ROW) (m : Nat) :
    ∀ (i : Nat) (out : List Char), i + m = 22 → dieLoop c n j seg (i : Int) out = none := by
  induction m with
  | zero =>
    intro i out hi
    rw [dieLoop, if_pos (by omega), READ_DIE_none c (i : Int) (by omega)]
  | succ m ih =>
    intro i out hi
    rw [dieLoop, if_pos (by omega), READ_DIE_eq c i (by omega)]
    simp only
    have h2 : (i : Int) + 1 = ((i + 1 : Nat) : Int) := by omega
    rw [h2]
    exact ih (i + 1) _ (by omega)

/-- With 23 dice or more `render` prints the groups of the dice 0 to 19 and then
runs into the undefined read of die 22. -/
theorem renderLoop_undefined (c : Nat) (n : Int) (hn : 23 ≤ n) (m : Nat) :
    ∀ (g : Nat) (out : List Char), g + m = 4 →
      renderLoop c n ((5 * g : Nat) : Int) out = none := by
  induction m with
  | zero =>
    intro g out hg
    rw [renderLoop, if_pos (by omega)]
    have hj : (22 : Int) < ((5 * g : Nat) : Int) + DICE_PER_ROW := by
      unfold DICE_PER_ROW
      omega
    have h := dieLoop_undefined c n ((5 * g : Nat) : Int) pipSeg1 hn hj (22 - 5 * g) (5 * g)
    simp only [h _ (by omega)]
  | succ m ih =>
    intro g out hg
    have hend : (((5 * g + 5 : Nat)) : Int) =
        min (((5 * g : Nat) : Int) + DICE_PER_ROW) n := by
      unfold DICE_PER_ROW
      omega
    rw [renderLoop, if_pos (by omega)]
    simp only [borderLoop_eq c n _ _ _ _ hend, dieLoop_eq c n _ _ _ _ _ (by omega) hend]
    have hj : ((5 * g : Nat) : Int) + DICE_PER_ROW = ((5 * (g + 1) : Nat) : Int) := by
      unfold DICE_PER_ROW
      omega
    rw [hj]
    exact ih (g + 1) _ (by omega)

set_option maxRecDepth 100000 in
theorem pictureText_zero_22_length : (pictureText 0 22).length = 1756 := by
  decide

/-! ## Cups for given faces -/

theorem cupReading_div (F : List Nat) : ∀ i, cupReading F / 2 ^ (3 * i) = cupReading (F.drop i) := by
  induction F with
  | nil => intro i; simp [cupReading]
  | cons f fs ih =>
    intro i
    cases i with
    | zero => simp
    | succ i =>
      have h8 : 2 ^ (3 * (i + 1)) = 8 * 2 ^ (3 * i) := by
        rw [show 3 * (i + 1) = 3 * i + 3 by ring, pow_add]
        ring
      rw [h8, ← Nat.div_div_eq_div_mul, List.drop_succ_cons, ← ih i]
      congr 1
      simp only [cupReading]
      omega

theorem cupReading_lt (F : List Nat) : cupReading F < 2 ^ (3 * F.length) := by
  induction F with
  | nil => simp [cupReading]
  | cons f fs ih =>
    simp only [cupReading, List.length_cons]
    have h8 : 2 ^ (3 * (fs.length + 1)) = 8 * 2 ^ (3 * fs.length) := by
      rw [show 3 * (fs.length + 1) = 3 * fs.length + 3 by ring, pow_add]
      ring
    rw [h8]
    omega

/-- `READ_DIE` reads from `cupReading F` the faces of `F`. -/
theorem dieFace_cupReading (F : List Nat) (hF : ∀ f ∈ F, 1 ≤ f ∧ f ≤ 6) (i : Nat)
    (hi : i < F.length) : dieFace (cupReading F) i = F[i] := by
  have hf := hF F[i] (List.getElem_mem hi)
  unfold dieFace
  rw [cupReading_div, List.drop_eq_getElem_cons hi]
  simp only [cupReading]
  omega

/-! ## Columns of the picture -/

/-- In a concatenation of blocks of one length `L`, the `L` entries from
`L * b` on are block `b`. -/
theorem take_drop_flatMap_uniform {α : Type} (f : Nat → List α) (L : Nat)
    (hL : ∀ k, (f k).length = L) (m : Nat) :
    ∀ b, b < m → (((List.range m).flatMap f).drop (L * b)).take L = f b := by
  induction m with
  | zero => intro b hb; omega
  | succ m ih =>
    intro b hb
    rw [List.range_succ, List.flatMap_append, List.flatMap_singleton]
    have hlen := length_flatMap_uniform f L hL m
    rcases Nat.lt_or_ge b m with h | h
    · have h1 : L * (b + 1) ≤ L * m := Nat.mul_le_mul_left L h
      have h2 : L * (b + 1) = L * b + L := by ring
      rw [List.drop_append_of_le_length (by rw [hlen]; omega),
        List.take_append_of_le_length (by rw [List.length_drop, hlen]; omega)]
      exact ih b h
    · have hbm : b = m := by omega
      subst hbm
      rw [List.drop_left' hlen, List.take_of_length_le (by rw [hL])]

theorem lineSeg_regular (r : Nat) : RegularSeg (lineSeg r) := by
  intro d h1 h6
  unfold lineSeg
  split
  · exact borderSeg_props
  · exact pipSeg1_props d h1 h6
  · exact pipSeg2_props d h1 h6
  · exact pipSeg3_props d h1 h6
  · exact borderSeg_props
  · exact valueSeg_props d h1 h6

/-- Line `r` (1 to 6) of a group's block is the row of the segments `lineSeg r`. -/
theorem groupBlock_line (c j m r : Nat) (h1 : 1 ≤ r) (h6 : r ≤ 6) :
    (groupBlock c j m).getD r [] = rowText (lineSeg r) c j m := by
  interval_cases r <;> rfl

theorem rowText_length (seg : Int → List Char) (hseg : RegularSeg seg) (c j m : Nat) :
    (rowText seg c j m).length = 13 * m := by
  unfold rowText
  exact length_flatMap_uniform (fun k => seg (dieFace c (j + k) : Nat)) 13
    (fun k => (hseg _ (dieFace_pos c _) (dieFace_le c _)).1) m

theorem rowText_block (seg : Int → List Char) (hseg : RegularSeg seg) (c j m b : Nat)
    (hb : b < m) :
    ((rowText seg c j m).drop (13 * b)).take 13 = seg (dieFace c (j + b) : Nat) := by
  unfold rowText
  exact take_drop_flatMap_uniform (fun k => seg (dieFace c (j + k) : Nat)) 13
    (fun k => (hseg _ (dieFace_pos c _) (dieFace_le c _)).1) m b hb

/-- Line `8g + r` of the picture, `r` from 1 to 6, is the row of the segments
`lineSeg r` of the dice of group `g`. -/
theorem pictureText_group_line (c n g r : Nat) (hg : g < (n + 4) / 5) (h1 : 1 ≤ r) (h6 : r ≤ 6) :
    (textLines (pictureText c n)).getD (8 * g + r) [] =
      rowText (lineSeg r) c (5 * g) (min 5 (n - 5 * g)) := by
  rw [pictureText_line c n g r hg (by omega), groupBlock_line c _ _ r h1 h6]

/-- The 13 columns of die `k` on line `r` (1 to 6) of its group are the segment
`lineSeg r` of the face of die `k`. -/
theorem pictureText_die_block (c n k r : Nat) (hk : k < n) (h1 : 1 ≤ r) (h6 : r ≤ 6) :
    (((textLines (pictureText c n)).getD (8 * (k / 5) + r) []).drop (13 * (k % 5))).take 13 =
      lineSeg r (dieFace c k : Nat) := by
  rw [pictureText_group_line c n (k / 5) r (by omega) h1 h6,
    rowText_block _ (lineSeg_regular r) c _ _ (k % 5) (by omega), Nat.div_add_mod]

/-- The picture text is its groups' eight lines, each ended by a newline. -/
theorem pictureText_eq_blocks (c n : Nat) :
    pictureText c n = (List.range ((n + 4) / 5)).flatMap (fun g =>
      (groupBlock c (5 * g) (min 5 (n - 5 * g))).flatMap (fun l => l ++ ['\n'])) := by
  unfold pictureText
  congr 1
  funext g
  simp only [groupText, groupBlock, groupLines, List.flatMap_cons, List.flatMap_nil,
    List.append_assoc, List.cons_append, List.nil_append, List.append_nil,
    List.flatMap_append]

/-- For the faces 1 to 6 the value segment is the digit after four blanks,
followed by eight blanks. -/
theorem valueSeg_digit (d : Nat) (h1 : 1 ≤ d) (h6 : d ≤ 6) :
    valueSeg (d : Int) = List.replicate 4 ' ' ++ [Nat.digitChar d] ++ List.replicate 8 ' ' := by
  interval_cases d <;> decide

/-- For the faces 1 to 6 the three pip segments hold as many `*` as the face. -/
theorem pipSeg_star_count (d : Nat) (h1 : 1 ≤ d) (h6 : d ≤ 6) :
    (pipSeg1 (d : Int)).count '*' + (pipSeg2 (d : Int)).count '*' +
      (pipSeg3 (d : Int)).count '*' = d := by
  interval_cases d <;> decide

/-! ## The driver -/

theorem fgetc_nil (w : World) (h : w.stdin = []) :
    fgetc w = (none, { w with eof := true }) := by
  unfold fgetc
  rw [h]

theorem fgetc_cons (w : World) (ch : Char) (rest : List Char) (h : w.stdin = ch :: rest) :
    fgetc w = (some ch, { w with stdin := rest }) := by
  unfold fgetc
  rw [h]

/-- Waiting for a line drops the first line of the unread input and touches
nothing else but the end-of-file indicator. -/
theorem skipLine_spec (l : List Char) : ∀ w : World, w.stdin = l → w.Consistent →
    (skipLine w).stdin = dropLine l ∧ (skipLine w).Consistent ∧
    (skipLine w).rands = w.rands ∧ (skipLine w).out = w.out := by
  induction l with
  | nil =>
    intro w hw _
    rw [skipLine, fgetc_nil w hw]
    simp [dropLine, World.Consistent, hw]
  | cons ch rest ih =>
    intro w hw hcons
    have heof : w.eof = false := by
      cases h : w.eof with
      | false => rfl
      | true =>
        have := hcons h
        rw [hw] at this
        exact absurd this (by simp)
    rw [skipLine, fgetc_cons w ch rest hw]
    by_cases hnl : ch = '\n'
    · subst hnl
      simp [dropLine, World.Consistent, heof]
    · have hcond : (some ch ≠ some '\n' ∧ ({ w with stdin := rest } : World).eof = false) := by
        exact ⟨by simpa using hnl, heof⟩
      rw [if_pos hcond]
      have h := ih { w with stdin := rest } rfl (by intro h; rw [heof] at h; exact absurd h (by simp))
      simp only [dropLine, if_neg hnl]
      exact h

/-- A round of five dice never runs into undefined behaviour: it draws one
random number, waits for one line and prints. -/
theorem play_petals_spec (rnd : Nat → Nat) (w : World) (hw : w.Consistent) :
    ∃ w1, play_petals rnd w = some w1 ∧ w1.stdin = dropLine w.stdin ∧ w1.Consistent ∧
      w1.rands = w.rands + 1 := by
  have hr : render (rnd w.rands % 2 ^ 64) NUM_DICE =
      some (pictureText (rnd w.rands % 2 ^ 64) 5) := by
    exact_mod_cast render_eq (rnd w.rands % 2 ^ 64) 5 (by decide)
  have ha : answer (rnd w.rands % 2 ^ 64) NUM_DICE =
      some ((∑ k ∈ Finset.range 5, petalsOf (dieFace (rnd w.rands % 2 ^ 64) k) : Nat) : Int) := by
    exact_mod_cast answer_eq (rnd w.rands % 2 ^ 64) 5 (by decide)
  unfold play_petals
  simp only [hr, ha]
  refine ⟨_, rfl, ?_, ?_, ?_⟩
  all_goals
    have h := skipLine_spec w.stdin
      { stdin := w.stdin, eof := w.eof, rands := w.rands + 1,
        out := w.out ++ pictureText (rnd w.rands % 2 ^ 64) 5 ++
          "Press Enter to reveal answer ".toList } rfl hw
  · exact h.1
  · exact h.2.1
  · exact h.2.2.1

theorem textLines_cons_ne (ch : Char) (l : List Char) (hch : ch ≠ '\n') :
    ∃ a t, textLines l = a :: t ∧ textLines (ch :: l) = (ch :: a) :: t := by
  cases h : textLines l with
  | nil =>
    exfalso
    cases l with
    | nil => simp [textLines] at h
    | cons x xs =>
      rw [textLines] at h
      split at h
      · exact absurd h (by simp)
      · split at h <;> exact absurd h (by simp)
  | cons a t =>
    refine ⟨a, t, rfl, ?_⟩
    rw [textLines, if_neg hch, h]

/-- The lines of a text are its first line and, when the text has a newline,
the lines of what follows the first line. -/
theorem textLines_dropLine (l : List Char) :
    ∃ a, textLines l = a :: textLines (dropLine l) ∨ (textLines l = [a] ∧ dropLine l = []) := by
  induction l with
  | nil => exact ⟨[], Or.inr ⟨rfl, rfl⟩⟩
  | cons ch rest ih =>
    by_cases hnl : ch = '\n'
    · subst hnl
      refine ⟨[], Or.inl ?_⟩
      rw [textLines, if_pos rfl]
      simp [dropLine]
    · obtain ⟨a, t, h1, h2⟩ := textLines_cons_ne ch rest hnl
      obtain ⟨b, hb⟩ := ih
      refine ⟨ch :: a, ?_⟩
      simp only [dropLine, if_neg hnl]
      rw [h2]
      rcases hb with hb | ⟨hb, hd⟩
      · left
        rw [h1] at hb
        have := List.cons.inj hb
        rw [this.2]
      · right
        rw [h1] at hb
        have := List.cons.inj hb
        rw [this.2]
        exact ⟨rfl, hd⟩

theorem extraRounds_lines_nil : extraRounds (textLines []) = 0 := rfl

/-- The rounds still to play are the same read off the lines after the first
line of a text and read off the text after its first line. -/
theorem extraRounds_drop (l : List Char) :
    extraRounds ((textLines l).drop 1) = extraRounds (textLines (dropLine l)) := by
  obtain ⟨a, h | ⟨h, hd⟩⟩ := textLines_dropLine l
  · rw [h]
    rfl
  · rw [h, hd]
    rfl

/-- No further round when nothing follows the line that reveals the answer. -/
theorem extraRounds_of_dropLine_nil (l : List Char) (h : dropLine l = []) :
    extraRounds (textLines l) = 0 := by
  obtain ⟨a, h1 | ⟨h1, _⟩⟩ := textLines_dropLine l
  · rw [h1, h]
    rfl
  · rw [h1]
    rfl

/-- No further round when the reply starts with a character other than `y`. -/
theorem extraRounds_of_reply_ne (l l2 : List Char) (ch : Char) (h : dropLine l = ch :: l2)
    (hch : ch ≠ 'y') : extraRounds (textLines l) = 0 := by
  obtain ⟨a, h1 | ⟨_, hd⟩⟩ := textLines_dropLine l
  · rw [h1, h]
    by_cases hnl : ch = '\n'
    · subst hnl
      rw [textLines, if_pos rfl]
      rfl
    · obtain ⟨b, t, _, h3⟩ := textLines_cons_ne ch l2 hnl
      rw [h3]
      simp [extraRounds, hch]
  · rw [hd] at h
    exact absurd h (by simp)

/-- One further round, and those after its reply line, when the reply starts
with `y`. -/
theorem extraRounds_of_reply_y (l l2 : List Char) (h : dropLine l = 'y' :: l2) :
    extraRounds (textLines l) = 1 + extraRounds (textLines (dropLine l2)) := by
  obtain ⟨a, h1 | ⟨_, hd⟩⟩ := textLines_dropLine l
  · rw [h1, h]
    obtain ⟨b, t, h2, h3⟩ := textLines_cons_ne 'y' l2 (by decide)
    rw [h3]
    have ht : extraRounds t = extraRounds ((textLines l2).drop 1) := by rw [h2]; rfl
    simp only [extraRounds, List.head?_cons, if_true]
    rw [ht, extraRounds_drop]
  · rw [hd] at h
    exact absurd h (by simp)

/-- The loop of `main` entered with `q == ROLL`: one round, the prompt, the
reply read into `q`, the rest of the reply line skipped, and the loop again. -/
theorem mainLoop_step (rnd : Nat → Nat) (w w1 : World) (h : play_petals rnd w = some w1) :
    mainLoop rnd (some ROLL) w =
      mainLoop rnd (fgetc { w1 with out := w1.out ++ "Play again? y/n: ".toList }).1
        (skipLine (fgetc { w1 with out := w1.out ++ "Play again? y/n: ".toList }).2) := by
  rw [mainLoop, if_pos rfl]
  split
  · rename_i h0
    rw [h] at h0
    exact absurd h0 (by simp)
  · rename_i w2 h2
    rw [h] at h2
    have := Option.some.inj h2
    subst this
    rfl

/-- The loop of `main` entered with `q != ROLL` returns `EXIT_SUCCESS` at once. -/
theorem mainLoop_exit (rnd : Nat → Nat) (q : Option Char) (w : World) (hq : q ≠ some ROLL) :
    mainLoop rnd q w = some (EXIT_SUCCESS, w) := by
  rw [mainLoop, if_neg hq]

theorem dropLine_length_le (l : List Char) : (dropLine l).length ≤ l.length := by
  induction l with
  | nil => simp [dropLine]
  | cons ch rest ih =>
    simp only [dropLine]
    split
    · simp
    · simp only [List.length_cons]
      omega

/-- The loop of `main`, entered at the start of a round, terminates with
`EXIT_SUCCESS` after one round and the further rounds the unread input calls for. -/
theorem mainLoop_rounds (rnd : Nat → Nat) (k : Nat) : ∀ w : World, w.stdin.length ≤ k →
    w.Consistent →
    ∃ w', mainLoop rnd (some ROLL) w = some (EXIT_SUCCESS, w') ∧
      w'.rands = w.rands + 1 + extraRounds (textLines w.stdin) := by
  induction k with
  | zero =>
    intro w hlen hw
    obtain ⟨w1, hplay, hs, hc, hr⟩ := play_petals_spec rnd w hw
    have hnil : w.stdin = [] := List.length_eq_zero.mp (by omega)
    have hd : dropLine w.stdin = [] := by rw [hnil]; rfl
    rw [mainLoop_step rnd w w1 hplay,
      fgetc_nil { w1 with out := w1.out ++ "Play again? y/n: ".toList } (by rw [← hd]; exact hs)]
    refine ⟨_, mainLoop_exit rnd none _ (by simp), ?_⟩
    have hs0 : w1.stdin = [] := by rw [← hd]; exact hs
    have h := skipLine_spec []
      ({ stdin := w1.stdin, eof := true, rands := w1.rands,
         out := w1.out ++ "Play again? y/n: ".toList } : World) hs0 (fun _ => hs0)
    rw [extraRounds_of_dropLine_nil w.stdin hd]
    simp only at h ⊢
    rw [h.2.2.1, hr]
  | succ k ih =>
    intro w hlen hw
    obtain ⟨w1, hplay, hs, hc, hr⟩ := play_petals_spec rnd w hw
    rw [mainLoop_step rnd w w1 hplay]
    cases hd : dropLine w.stdin with
    | nil =>
      rw [hd] at hs
      rw [fgetc_nil { w1 with out := w1.out ++ "Play again? y/n: ".toList } hs]
      refine ⟨_, mainLoop_exit rnd none _ (by simp), ?_⟩
      have h := skipLine_spec []
        ({ stdin := w1.stdin, eof := true, rands := w1.rands,
           out := w1.out ++ "Play again? y/n: ".toList } : World) hs (fun _ => hs)
      rw [extraRounds_of_dropLine_nil w.stdin hd]
      simp only at h ⊢
      rw [h.2.2.1, hr]
    | cons ch l2 =>
      rw [hd] at hs
      rw [fgetc_cons { w1 with out := w1.out ++ "Play again? y/n: ".toList } ch l2 hs]
      have hc2 : World.Consistent
          { stdin := l2, eof := w1.eof, rands := w1.rands,
            out := w1.out ++ "Play again? y/n: ".toList } := by
        intro he
        have := hc he
        rw [hs] at this
        exact absurd this (by simp)
      have h := skipLine_spec l2
        ({ stdin := l2, eof := w1.eof, rands := w1.rands,
           out := w1.out ++ "Play again? y/n: ".toList } : World) rfl hc2
      by_cases hy : ch = 'y'
      · subst hy
        have hlen2 : (dropLine l2).length ≤ k := by
          have h1 := dropLine_length_le l2
          have h2 := dropLine_length_le w.stdin
          rw [hd, List.length_cons] at h2
          omega
        obtain ⟨w', hw', hrands⟩ := ih _ (by rw [h.1]; exact hlen2) h.2.1
        refine ⟨w', hw', ?_⟩
        rw [hrands, h.2.2.1, h.1, extraRounds_of_reply_y w.stdin l2 hd]
        simp only
        rw [hr]
        omega
      · refine ⟨_, mainLoop_exit rnd (some ch) _ (by simpa [ROLL] using hy), ?_⟩
        rw [extraRounds_of_reply_ne w.stdin l2 ch hd hy]
        simp only at h ⊢
        rw [h.2.2.1, hr]

/-- `main` terminates with `EXIT_SUCCESS` after one round and the further rounds
the input calls for. -/
theorem main_rounds (rnd : Nat → Nat) (input : List Char) :
    ∃ w, main rnd input = some (EXIT_SUCCESS, w) ∧
      w.rands = 1 + extraRounds ((textLines input).drop 1) := by
  have h := skipLine_spec input
    ({ stdin := input, eof := false, rands := 0,
       out := [] ++ rulesText ++ "Press Enter to begin".toList } : World)
    rfl (by intro h; exact absurd h (by simp))
  obtain ⟨w, hw, hr⟩ := mainLoop_rounds rnd _ _ (Nat.le_refl _) h.2.1
  refine ⟨w, hw, ?_⟩
  rw [hr, h.2.2.1, h.1, extraRounds_drop]

/-! ## The claims of the specification -/

/-- C1. For every 64-bit cup `c` and die count `n ≤ 21`, `answer(c, n)` returns
the sum over `i < n` of `face_i - 1` for odd `face_i` and `0` for even `face_i`,
where `face_i = READ_DIE(c, i) = ((c >> 3i) mod 6) + 1`; the same number is the
sum of `(face_i - 1) * (face_i mod 2)`. -/
theorem answer_sum_of_petals (c : Nat) (n : Nat) (_hc : c < 2 ^ 64) (hn : n ≤ 21) :
    (∀ i : Nat, i < n → READ_DIE c (i : Int) = some (((c >>> (3 * i)) % 6 + 1 : Nat) : Int)) ∧
    answer c (n : Int) =
      some ((∑ i ∈ Finset.range n,
        (if ((c >>> (3 * i)) % 6 + 1) % 2 = 1 then ((c >>> (3 * i)) % 6 + 1) - 1 else 0) : Nat) : Int) ∧
    answer c (n : Int) =
      some ((∑ i ∈ Finset.range n,
        (((c >>> (3 * i)) % 6 + 1) - 1) * (((c >>> (3 * i)) % 6 + 1) % 2) : Nat) : Int) := by
  have hface : ∀ i, (c >>> (3 * i)) % 6 + 1 = dieFace c i := by
    intro i
    rw [Nat.shiftRight_eq_div_pow]
    rfl
  refine ⟨?_, ?_, ?_⟩
  · intro i hi
    rw [hface, READ_DIE_eq c i (by omega)]
  · rw [answer_eq c n (by omega)]
    simp only [hface, petalsOf]
  · rw [answer_eq c n (by omega)]
    congr 2
    apply Finset.sum_congr rfl
    intro i _
    rw [hface]
    unfold petalsOf
    rcases Nat.mod_two_eq_zero_or_one (dieFace c i) with h | h
    · rw [h, if_neg (by omega)]
      simp
    · rw [h, if_pos rfl]
      simp

/-- C1 at the cup `2048` (read as the faces 3, 5, 3, 5, 1) with five dice. -/
theorem answer_sum_of_petals_witness :
    (∀ i : Nat, i < 5 → READ_DIE 2048 (i : Int) = some ((((2048 : Nat) >>> (3 * i)) % 6 + 1 : Nat) : Int)) ∧
    answer 2048 ((5 : Nat) : Int) =
      some ((∑ i ∈ Finset.range 5,
        (if (((2048 : Nat) >>> (3 * i)) % 6 + 1) % 2 = 1 then (((2048 : Nat) >>> (3 * i)) % 6 + 1) - 1 else 0) : Nat) : Int) ∧
    answer 2048 ((5 : Nat) : Int) =
      some ((∑ i ∈ Finset.range 5,
        ((((2048 : Nat) >>> (3 * i)) % 6 + 1) - 1) * ((((2048 : Nat) >>> (3 * i)) % 6 + 1) % 2) : Nat) : Int) :=
  answer_sum_of_petals 2048 5 (by decide) (by decide)

/-- C2. For every 64-bit cup `c` and die index `i < 21`, the shift amount `3i`
is below 64, so `READ_DIE(c, i)` is defined; it equals `((c >> 3i) mod 6) + 1`
and is a face in `[1, 6]`. -/
theorem READ_DIE_face_in_range (c : Nat) (i : Nat) (_hc : c < 2 ^ 64) (hi : i < 21) :
    3 * i < 64 ∧
    READ_DIE c (i : Int) = some (((c >>> (3 * i)) % 6 + 1 : Nat) : Int) ∧
    1 ≤ (c >>> (3 * i)) % 6 + 1 ∧ (c >>> (3 * i)) % 6 + 1 ≤ 6 := by
  have hface : (c >>> (3 * i)) % 6 + 1 = dieFace c i := by
    rw [Nat.shiftRight_eq_div_pow]
    rfl
  rw [hface]
  exact ⟨by omega, READ_DIE_eq c i (by omega), dieFace_pos c i, dieFace_le c i⟩

/-- C2 at the all-ones cup and the last die index, 20. -/
theorem READ_DIE_face_in_range_witness :
    3 * 20 < 64 ∧
    READ_DIE (2 ^ 64 - 1) ((20 : Nat) : Int) =
      some (((((2 ^ 64 - 1 : Nat)) >>> (3 * 20)) % 6 + 1 : Nat) : Int) ∧
    1 ≤ ((2 ^ 64 - 1 : Nat) >>> (3 * 20)) % 6 + 1 ∧ ((2 ^ 64 - 1 : Nat) >>> (3 * 20)) % 6 + 1 ≤ 6 :=
  READ_DIE_face_in_range (2 ^ 64 - 1) 20 (by decide) (by decide)

/-- C3, as stated, fails: the faces `[1, 2]` are packed as the cup `8`, whose die 0
is read as `8 mod 6 + 1 = 3`, not as the face `1` that was packed. -/
theorem roundtrip_counterexample :
    specEncode [1, 2] = some 8 ∧ READ_DIE 8 0 = some 3 ∧
      READ_DIE 8 0 ≠ some ((([1, 2] : List Nat)[0] : Nat) : Int) := by
  decide

/-- C3 (amended). For every face sequence `F` of length at most 21 with faces in
`[1,6]` and every `i` below its length, `READ_DIE(encode(F), i)` is defined and
is a face of the same parity as `F[i]`; it equals `F[i]` exactly when the packing
of the dice above position `i`, `encode(F) >> 3(i+1)`, is a multiple of 3, which
is so for the last die. -/
theorem readback_of_packed_face (F : List Nat) (i : Nat) (hlen : F.length ≤ 21)
    (hF : ∀ f ∈ F, 1 ≤ f ∧ f ≤ 6) (hi : i < F.length) :
    ∃ e d : Nat, specEncode F = some e ∧ e < 2 ^ 64 ∧ READ_DIE e (i : Int) = some (d : Int) ∧
      d % 2 = F[i] % 2 ∧ (d = F[i] ↔ 3 ∣ e >>> (3 * (i + 1))) ∧
      (i + 1 = F.length → d = F[i]) := by
  refine ⟨specPack F, dieFace (specPack F) i, specEncode_eq F hlen hF, ?_,
    READ_DIE_eq _ i (by omega), ?_, ?_, ?_⟩
  · have h1 := specPack_lt F
    have h2 : (2 : Nat) ^ (3 * F.length) ≤ 2 ^ 63 :=
      Nat.pow_le_pow_right (by decide) (by omega)
    omega
  all_goals
    have hf := hF F[i] (List.getElem_mem hi)
    rw [dieFace_specPack F i hi]
  · omega
  · rw [Nat.shiftRight_eq_div_pow, specPack_div]
    omega
  · intro hlast
    have hdrop : F.drop (i + 1) = [] := by
      apply List.drop_of_length_le
      omega
    rw [hdrop]
    simp only [specPack]
    omega

/-- C3 (amended) at the faces `[1, 2]` and position 0. -/
theorem readback_of_packed_face_witness :
    ∃ e d : Nat, specEncode [1, 2] = some e ∧ e < 2 ^ 64 ∧
      READ_DIE e ((0 : Nat) : Int) = some (d : Int) ∧
      d % 2 = ([1, 2] : List Nat)[0] % 2 ∧
      (d = ([1, 2] : List Nat)[0] ↔ 3 ∣ e >>> (3 * (0 + 1))) ∧
      (0 + 1 = ([1, 2] : List Nat).length → d = ([1, 2] : List Nat)[0]) :=
  readback_of_packed_face [1, 2] 0 (by decide) (by decide) (by decide)

/-- C4, as stated, fails: the cups `0` and `8` agree on their low three bits (die
0), yet with one die `answer` returns `0` for the first and `2` for the second,
because die 0 of the cup `8` is read as `8 mod 6 + 1 = 3`. -/
theorem unused_bits_counterexample :
    (0 : Nat) % 2 ^ (3 * 1) = 8 % 2 ^ (3 * 1) ∧ answer 0 1 = some 0 ∧ answer 8 1 = some 2 := by
  refine ⟨by decide, ?_, ?_⟩
  · have h := answer_eq 0 1 (by decide)
    simpa using h
  · have h := answer_eq 8 1 (by decide)
    simpa using h

/-- C4 (amended). For every die count `n ≤ 21` and every two 64-bit cups that
agree on their low `3n` bits and whose remaining high parts `c >> 3n` and
`c' >> 3n` are congruent modulo 3 (for instance both zero), `answer(c, n)` and
`answer(c', n)` read the same faces and return the same score. -/
theorem answer_ignores_high_part (c c' : Nat) (n : Nat) (_hc : c < 2 ^ 64) (_hc' : c' < 2 ^ 64)
    (hn : n ≤ 21) (hlow : c % 2 ^ (3 * n) = c' % 2 ^ (3 * n))
    (hhigh : (c >>> (3 * n)) % 3 = (c' >>> (3 * n)) % 3) :
    (∀ i : Nat, i < n → READ_DIE c (i : Int) = READ_DIE c' (i : Int)) ∧
    answer c (n : Int) = answer c' (n : Int) := by
  rw [Nat.shiftRight_eq_div_pow, Nat.shiftRight_eq_div_pow] at hhigh
  refine ⟨?_, ?_⟩
  · intro i hi
    rw [READ_DIE_eq c i (by omega), READ_DIE_eq c' i (by omega),
      dieFace_congr c c' n i hi hlow hhigh]
  · rw [answer_eq c n (by omega), answer_eq c' n (by omega)]
    congr 2
    apply Finset.sum_congr rfl
    intro i hi
    rw [Finset.mem_range] at hi
    rw [dieFace_congr c c' n i hi hlow hhigh]

/-- C4 (amended) at the cups `2` and `26 = 2 + 8 * 3` with one die. -/
theorem answer_ignores_high_part_witness :
    (∀ i : Nat, i < 1 → READ_DIE 2 (i : Int) = READ_DIE 26 (i : Int)) ∧
    answer 2 ((1 : Nat) : Int) = answer 26 ((1 : Nat) : Int) :=
  answer_ignores_high_part 2 26 1 (by decide) (by decide) (by decide) (by decide) (by decide)

/-- C5, as stated, fails for the face 3: `render` draws it as top-right, centre,
bottom-left.  The cup `2` holds one die showing 3; its picture has a blank where
the specification's table fills top-left and bottom-right, and pips at top-right
and bottom-left, which the table leaves blank. -/
theorem face_three_counterexample :
    READ_DIE 2 0 = some 3 ∧
    render 2 1 = some
      "\n -------     \n|     * |    \n|   *   |    \n| *     |    \n -------     \n    3        \n\n".toList ∧
    Pip.topLeft ∈ specPips 3 ∧ pipChar 3 Pip.topLeft = ' ' ∧
    Pip.botRight ∈ specPips 3 ∧ pipChar 3 Pip.botRight = ' ' ∧
    Pip.topRight ∉ specPips 3 ∧ pipChar 3 Pip.topRight = '*' ∧
    Pip.botLeft ∉ specPips 3 ∧ pipChar 3 Pip.botLeft = '*' := by
  refine ⟨by decide, ?_, by decide, by decide, by decide, by decide, by decide, by decide,
    by decide, by decide⟩
  have h := render_eq 2 1 (by decide)
  rw [Nat.cast_one] at h
  rw [h]
  rfl

/-- C5 (amended). For every die face `d` in `[1,6]`, the three pip lines `render`
draws for a die showing `d` have a `*` exactly at the positions of the
specification's table, with the entry for 3 read as top-right, centre,
bottom-left, and a blank at every other position of the grid; this is what the
picture of every die reading `d` shows, in any cup and at any place among up to
21 dice. -/
theorem pips_drawn_per_face (d : Nat) (h1 : 1 ≤ d) (h6 : d ≤ 6) :
    (∀ p : Pip, pipChar (d : Int) p =
      if p ∈ (if d = 3 then [Pip.topRight, Pip.center, Pip.botLeft] else specPips d)
      then '*' else ' ') ∧
    (∀ c n k : Nat, c < 2 ^ 64 → n ≤ 21 → k < n → READ_DIE c (k : Int) = some (d : Int) →
      ∃ txt, render c (n : Int) = some txt ∧
        ∀ p : Pip, pictureChar txt k p = pipChar (d : Int) p) := by
  constructor
  · intro p
    interval_cases d <;> cases p <;> decide
  · intro c n k _ hn hk hd
    rw [READ_DIE_eq c k (by omega)] at hd
    have hface : dieFace c k = d := by
      have := Option.some.inj hd
      exact_mod_cast this
    refine ⟨pictureText c n, render_eq c n (by omega), ?_⟩
    intro p
    rw [pictureChar_pictureText c n k hk p, hface]

/-- C5 (amended) at the face 3. -/
theorem pips_drawn_per_face_witness :
    (∀ p : Pip, pipChar ((3 : Nat) : Int) p =
      if p ∈ (if 3 = 3 then [Pip.topRight, Pip.center, Pip.botLeft] else specPips 3)
      then '*' else ' ') ∧
    (∀ c n k : Nat, c < 2 ^ 64 → n ≤ 21 → k < n → READ_DIE c (k : Int) = some ((3 : Nat) : Int) →
      ∃ txt, render c (n : Int) = some txt ∧
        ∀ p : Pip, pictureChar txt k p = pipChar ((3 : Nat) : Int) p) :=
  pips_drawn_per_face 3 (by decide) (by decide)

/-- C6. For every 64-bit cup `c` and die count `n ≤ 21`, `render(c, n)` prints a
picture and `answer(c, n)` returns the number of petals visible in it: the total,
over the `n` dice of the picture, of the `*` pips other than the centre pip on
each die whose centre pip is drawn, the dice without a centre pip counting 0. -/
theorem answer_counts_petals_shown (c n : Nat) (_hc : c < 2 ^ 64) (hn : n ≤ 21) :
    ∃ txt, render c (n : Int) = some txt ∧
      answer c (n : Int) = some ((∑ k ∈ Finset.range n, petalsShown txt k : Nat) : Int) := by
  refine ⟨pictureText c n, render_eq c n (by omega), ?_⟩
  rw [answer_eq c n (by omega)]
  congr 2
  apply Finset.sum_congr rfl
  intro k hk
  rw [Finset.mem_range] at hk
  rw [petalsShown_pictureText c n k hk]

/-- C6 at the cup `2048` (read as the faces 3, 5, 3, 5, 1) with five dice. -/
theorem answer_counts_petals_shown_witness :
    ∃ txt, render 2048 ((5 : Nat) : Int) = some txt ∧
      answer 2048 ((5 : Nat) : Int) =
        some ((∑ k ∈ Finset.range 5, petalsShown txt k : Nat) : Int) :=
  answer_counts_petals_shown 2048 5 (by decide) (by decide)

/-- C7, as stated, fails: `[2, 1]` is a permutation of `[1, 2]`; the first is
packed as the cup `1`, read as the faces 2, 1 and scored 0, the second as the
cup `8`, read as the faces 3, 2 and scored 2. -/
theorem ordering_counterexample :
    List.Perm [1, 2] [2, 1] ∧ specEncode [1, 2] = some 8 ∧ specEncode [2, 1] = some 1 ∧
      answer 8 2 = some 2 ∧ answer 1 2 = some 0 := by
  refine ⟨List.Perm.swap 2 1 [], by decide, by decide, ?_, ?_⟩
  · have h := answer_eq 8 2 (by decide)
    simpa [Finset.sum_range_succ, petalsOf, dieFace] using h
  · have h := answer_eq 1 2 (by decide)
    simpa [Finset.sum_range_succ, petalsOf, dieFace] using h

/-- C7 (amended). The score is invariant to the ordering of the faces the program
reads: for 64-bit cups `c`, `c'` and `n ≤ 21`, when the faces `READ_DIE` reads
from `c'` at positions `0..n-1` are a permutation of those it reads from `c`,
`answer(c, n) = answer(c', n)`. -/
theorem answer_perm_of_reads (c c' : Nat) (n : Nat) (_hc : c < 2 ^ 64) (_hc' : c' < 2 ^ 64)
    (hn : n ≤ 21)
    (hperm : List.Perm ((List.range n).map (fun i : Nat => READ_DIE c (i : Int)))
      ((List.range n).map (fun i : Nat => READ_DIE c' (i : Int)))) :
    answer c (n : Int) = answer c' (n : Int) := by
  rw [answer_eq_reads c n (by omega), answer_eq_reads c' n (by omega)]
  have h := (hperm.map petalsOfRead).sum_eq
  rw [List.map_map, List.map_map] at h
  have e : ∀ x : Nat, (fun i : Nat => petalsOfRead (READ_DIE x (i : Int))) =
      petalsOfRead ∘ fun i : Nat => READ_DIE x (i : Int) := fun _ => rfl
  rw [e c, e c', h]

/-- C7 (amended) at the cups `1` (read as the faces 2, 1) and `12` (read as the
faces 1, 2) with two dice. -/
theorem answer_perm_of_reads_witness :
    List.Perm ((List.range 2).map (fun i : Nat => READ_DIE 1 (i : Int)))
      ((List.range 2).map (fun i : Nat => READ_DIE 12 (i : Int))) ∧
    answer 1 ((2 : Nat) : Int) = answer 12 ((2 : Nat) : Int) :=
  ⟨by decide, answer_perm_of_reads 1 12 2 (by decide) (by decide) (by decide) (by decide)⟩

/-- C8. For every face sequence `F` of length at most 21 whose faces are all
even, `encode(F)` succeeds and `answer(encode(F), n) = 0` for `n` the length of
`F`: every face read back is even, whatever the dice above it. -/
theorem answer_all_even (F : List Nat) (hlen : F.length ≤ 21)
    (hF : ∀ f ∈ F, f = 2 ∨ f = 4 ∨ f = 6) :
    ∃ e : Nat, specEncode F = some e ∧ answer e (F.length : Int) = some 0 := by
  have hF' : ∀ f ∈ F, 1 ≤ f ∧ f ≤ 6 := by
    intro f hf
    rcases hF f hf with h | h | h <;> omega
  refine ⟨specPack F, specEncode_eq F hlen hF', ?_⟩
  rw [answer_eq (specPack F) F.length (by omega)]
  have hzero : ∑ k ∈ Finset.range F.length, petalsOf (dieFace (specPack F) k) = 0 := by
    apply Finset.sum_eq_zero
    intro i hi
    rw [Finset.mem_range] at hi
    have hf := hF F[i] (List.getElem_mem hi)
    rw [dieFace_specPack F i hi]
    unfold petalsOf
    rw [if_neg]
    rcases hf with h | h | h <;> rw [h] <;> omega
  rw [hzero]
  rfl

/-- C8 at the faces `[2, 2, 2, 2, 2]`. -/
theorem answer_all_even_witness :
    ∃ e : Nat, specEncode [2, 2, 2, 2, 2] = some e ∧
      answer e (([2, 2, 2, 2, 2] : List Nat).length : Int) = some 0 :=
  answer_all_even [2, 2, 2, 2, 2] (by decide) (by decide)

/-- C9, as stated, fails: the faces `[3, 5, 3, 5, 1]` are packed as the cup
`2210`, which `READ_DIE` reads as the faces 3, 1, 5, 5, 1, and `answer` returns
`10` for it, not `12`. -/
theorem packed_35351_counterexample :
    specEncode [3, 5, 3, 5, 1] = some 2210 ∧
      (List.range 5).map (fun i : Nat => READ_DIE 2210 (i : Int)) =
        [some 3, some 1, some 5, some 5, some 1] ∧
      answer 2210 5 = some 10 ∧ answer 2210 5 ≠ some 12 := by
  have h := answer_eq 2210 5 (by decide)
  have h10 : answer 2210 5 = some 10 := by
    simpa [Finset.sum_range_succ, petalsOf, dieFace] using h
  refine ⟨by decide, by decide, h10, ?_⟩
  rw [h10]
  decide

/-- C9 (amended). For every 64-bit cup from which `READ_DIE` reads the faces
3, 5, 3, 5, 1 at positions 0 to 4 (the cup `2048` is one), `answer(c, 5) = 12`. -/
theorem answer_faces_35351 (c : Nat) (_hc : c < 2 ^ 64)
    (hreads : (List.range 5).map (fun i : Nat => READ_DIE c (i : Int)) =
      [some 3, some 5, some 3, some 5, some 1]) :
    answer c 5 = some 12 := by
  have h := answer_eq_reads c 5 (by decide)
  have hmap : (List.range 5).map (fun i : Nat => petalsOfRead (READ_DIE c (i : Int))) =
      ((List.range 5).map (fun i : Nat => READ_DIE c (i : Int))).map petalsOfRead := by
    rw [List.map_map]
    rfl
  rw [hmap, hreads] at h
  simpa [petalsOfRead, petalsOf] using h

/-- C9 (amended) at the cup `2048`. -/
theorem answer_faces_35351_witness :
    (List.range 5).map (fun i : Nat => READ_DIE 2048 (i : Int)) =
      [some 3, some 5, some 3, some 5, some 1] ∧ answer 2048 5 = some 12 :=
  ⟨by decide, answer_faces_35351 2048 (by decide) (by decide)⟩

/-- C10, as stated, fails: the faces `[5, 5, 5, 5, 5]` are packed as the cup
`18724`, which `READ_DIE` reads as the faces 5, 1, 5, 1, 5, and `answer` returns
`12` for it, not `20`. -/
theorem packed_55555_counterexample :
    specEncode [5, 5, 5, 5, 5] = some 18724 ∧
      (List.range 5).map (fun i : Nat => READ_DIE 18724 (i : Int)) =
        [some 5, some 1, some 5, some 1, some 5] ∧
      answer 18724 5 = some 12 ∧ answer 18724 5 ≠ some 20 := by
  have h := answer_eq 18724 5 (by decide)
  have h12 : answer 18724 5 = some 12 := by
    simpa [Finset.sum_range_succ, petalsOf, dieFace] using h
  refine ⟨by decide, by decide, h12, ?_⟩
  rw [h12]
  decide

/-- C10 (amended). For every 64-bit cup from which `READ_DIE` reads the face 5
at each of the positions 0 to 4 (the cup `17554` is one), `answer(c, 5) = 20`. -/
theorem answer_faces_55555 (c : Nat) (_hc : c < 2 ^ 64)
    (hreads : (List.range 5).map (fun i : Nat => READ_DIE c (i : Int)) =
      [some 5, some 5, some 5, some 5, some 5]) :
    answer c 5 = some 20 := by
  have h := answer_eq_reads c 5 (by decide)
  have hmap : (List.range 5).map (fun i : Nat => petalsOfRead (READ_DIE c (i : Int))) =
      ((List.range 5).map (fun i : Nat => READ_DIE c (i : Int))).map petalsOfRead := by
    rw [List.map_map]
    rfl
  rw [hmap, hreads] at h
  simpa [petalsOfRead, petalsOf] using h

/-- C10 (amended) at the cup `17554`. -/
theorem answer_faces_55555_witness :
    (List.range 5).map (fun i : Nat => READ_DIE 17554 (i : Int)) =
      [some 5, some 5, some 5, some 5, some 5] ∧ answer 17554 5 = some 20 :=
  ⟨by decide, answer_faces_55555 17554 (by decide) (by decide)⟩

/-- C11. For every 64-bit cup `c` and die count `n ≤ 21`, the text `render(c, n)`
prints is the concatenation of exactly `⌈n/5⌉` row-groups, each made of eight
lines ended by a newline: a blank line, the top border, the three pip lines,
the bottom border, the value line and a blank line, none of these lines holding
a newline of its own; for `n = 0` no text is printed. -/
theorem render_row_groups (c n : Nat) (_hc : c < 2 ^ 64) (hn : n ≤ 21) :
    ∃ txt, render c (n : Int) = some txt ∧
      txt = (List.range ((n + 4) / 5)).flatMap (fun g =>
        ([[],
          rowText (fun _ => borderSeg) c (5 * g) (min 5 (n - 5 * g)),
          rowText pipSeg1 c (5 * g) (min 5 (n - 5 * g)),
          rowText pipSeg2 c (5 * g) (min 5 (n - 5 * g)),
          rowText pipSeg3 c (5 * g) (min 5 (n - 5 * g)),
          rowText (fun _ => borderSeg) c (5 * g) (min 5 (n - 5 * g)),
          rowText valueSeg c (5 * g) (min 5 (n - 5 * g)),
          []] : List (List Char)).flatMap (fun l => l ++ ['\n'])) ∧
      (∀ g : Nat, g < (n + 4) / 5 →
        '\n' ∉ rowText (fun _ => borderSeg) c (5 * g) (min 5 (n - 5 * g)) ∧
        '\n' ∉ rowText pipSeg1 c (5 * g) (min 5 (n - 5 * g)) ∧
        '\n' ∉ rowText pipSeg2 c (5 * g) (min 5 (n - 5 * g)) ∧
        '\n' ∉ rowText pipSeg3 c (5 * g) (min 5 (n - 5 * g)) ∧
        '\n' ∉ rowText valueSeg c (5 * g) (min 5 (n - 5 * g))) ∧
      (n ≤ 5 * ((n + 4) / 5) ∧ 5 * ((n + 4) / 5) < n + 5) ∧
      (n = 0 → txt = []) := by
  refine ⟨pictureText c n, render_eq c n (by omega), ?_, ?_, by omega, ?_⟩
  · exact pictureText_eq_blocks c n
  · intro g _
    exact ⟨rowText_no_newline _ (fun _ _ _ => borderSeg_props) c _ _,
      rowText_no_newline _ pipSeg1_props c _ _, rowText_no_newline _ pipSeg2_props c _ _,
      rowText_no_newline _ pipSeg3_props c _ _, rowText_no_newline _ valueSeg_props c _ _⟩
  · intro h0
    subst h0
    rfl

/-- C11 at the cup `17554` with seven dice (two row-groups). -/
theorem render_row_groups_witness :
    ∃ txt, render 17554 ((7 : Nat) : Int) = some txt ∧
      txt = (List.range ((7 + 4) / 5)).flatMap (fun g =>
        ([[],
          rowText (fun _ => borderSeg) 17554 (5 * g) (min 5 (7 - 5 * g)),
          rowText pipSeg1 17554 (5 * g) (min 5 (7 - 5 * g)),
          rowText pipSeg2 17554 (5 * g) (min 5 (7 - 5 * g)),
          rowText pipSeg3 17554 (5 * g) (min 5 (7 - 5 * g)),
          rowText (fun _ => borderSeg) 17554 (5 * g) (min 5 (7 - 5 * g)),
          rowText valueSeg 17554 (5 * g) (min 5 (7 - 5 * g)),
          []] : List (List Char)).flatMap (fun l => l ++ ['\n'])) ∧
      (∀ g : Nat, g < (7 + 4) / 5 →
        '\n' ∉ rowText (fun _ => borderSeg) 17554 (5 * g) (min 5 (7 - 5 * g)) ∧
        '\n' ∉ rowText pipSeg1 17554 (5 * g) (min 5 (7 - 5 * g)) ∧
        '\n' ∉ rowText pipSeg2 17554 (5 * g) (min 5 (7 - 5 * g)) ∧
        '\n' ∉ rowText pipSeg3 17554 (5 * g) (min 5 (7 - 5 * g)) ∧
        '\n' ∉ rowText valueSeg 17554 (5 * g) (min 5 (7 - 5 * g))) ∧
      (7 ≤ 5 * ((7 + 4) / 5) ∧ 5 * ((7 + 4) / 5) < 7 + 5) ∧
      (7 = 0 → txt = []) :=
  render_row_groups 17554 7 (by decide) (by decide)

/-- C12. For every 64-bit cup `c`, die count `n` in `[1, 21]` and row-group
`g < ⌈n/5⌉`, the value line of group `g` (line `8g + 6` of the text) is the
concatenation, for `i` from `5g` to `min(5g+5, n) - 1` in order, of the decimal
digit of `READ_DIE(c, i)` right-aligned in a field of width 5 and followed by 8
blanks; so the number printed for die `k`, at column `13 (k mod 5) + 4` of the
value line of group `k / 5`, is `READ_DIE(c, k)`. -/
theorem value_line_shows_faces (c n g : Nat) (_hc : c < 2 ^ 64) (_h1 : 1 ≤ n) (hn : n ≤ 21)
    (hg : g < (n + 4) / 5) :
    ∃ (txt : List Char) (face : Nat → Nat), render c (n : Int) = some txt ∧
      (∀ i : Nat, i < n → READ_DIE c (i : Int) = some ((face i : Nat) : Int)) ∧
      (textLines txt).getD (8 * g + 6) [] =
        (List.range (min (5 * g + 5) n - 5 * g)).flatMap (fun k =>
          List.replicate 4 ' ' ++ [Nat.digitChar (face (5 * g + k))] ++ List.replicate 8 ' ') ∧
      (∀ k : Nat, k < n →
        charAt txt (8 * (k / 5) + 6) (13 * (k % 5) + 4) = Nat.digitChar (face k)) := by
  refine ⟨pictureText c n, dieFace c, render_eq c n (by omega), ?_, ?_, ?_⟩
  · intro i hi
    exact READ_DIE_eq c i (by omega)
  · rw [pictureText_group_line c n g 6 hg (by decide) (by decide)]
    have hm : min (5 * g + 5) n - 5 * g = min 5 (n - 5 * g) := by omega
    rw [hm]
    unfold rowText
    congr 1
    funext k
    exact valueSeg_digit _ (dieFace_pos c _) (dieFace_le c _)
  · intro k hk
    unfold charAt
    rw [pictureText_group_line c n (k / 5) 6 (by omega) (by decide) (by decide),
      rowText_getD _ (lineSeg_regular 6) c _ _ (k % 5) 4 (by omega) (by decide),
      Nat.div_add_mod]
    have h := valueSeg_digit _ (dieFace_pos c k) (dieFace_le c k)
    show (valueSeg (dieFace c k : Nat)).getD 4 ' ' = _
    rw [h]
    rfl

/-- C12 at the cup `17554` with seven dice and the second row-group. -/
theorem value_line_shows_faces_witness :
    ∃ (txt : List Char) (face : Nat → Nat), render 17554 ((7 : Nat) : Int) = some txt ∧
      (∀ i : Nat, i < 7 → READ_DIE 17554 (i : Int) = some ((face i : Nat) : Int)) ∧
      (textLines txt).getD (8 * 1 + 6) [] =
        (List.range (min (5 * 1 + 5) 7 - 5 * 1)).flatMap (fun k =>
          List.replicate 4 ' ' ++ [Nat.digitChar (face (5 * 1 + k))] ++ List.replicate 8 ' ') ∧
      (∀ k : Nat, k < 7 →
        charAt txt (8 * (k / 5) + 6) (13 * (k % 5) + 4) = Nat.digitChar (face k)) :=
  value_line_shows_faces 17554 7 1 (by decide) (by decide) (by decide) (by decide)

/-- C13. Column alignment: for every 64-bit cup `c`, die count `n` in `[1, 21]`
and row-group `g < ⌈n/5⌉` holding `m = min(5, n - 5g)` dice, the top border, the
three pip lines, the bottom border and the value line of the group (lines
`8g + 1` to `8g + 6` of the text) all have exactly `13 m` characters, and on
each of them the columns `[13k, 13k + 13)` are the segment of the `k`-th die of
the group: a border, a pip row of its face, or its value. -/
theorem columns_aligned (c n g : Nat) (_hc : c < 2 ^ 64) (_h1 : 1 ≤ n) (hn : n ≤ 21)
    (hg : g < (n + 4) / 5) :
    ∃ (txt : List Char) (face : Nat → Nat), render c (n : Int) = some txt ∧
      (∀ i : Nat, i < n → READ_DIE c (i : Int) = some ((face i : Nat) : Int)) ∧
      (∀ r : Nat, 1 ≤ r → r ≤ 6 →
        ((textLines txt).getD (8 * g + r) []).length = 13 * min 5 (n - 5 * g) ∧
        ∀ k : Nat, k < min 5 (n - 5 * g) →
          (((textLines txt).getD (8 * g + r) []).drop (13 * k)).take 13 =
            lineSeg r (face (5 * g + k) : Nat) ∧
          (lineSeg r (face (5 * g + k) : Nat)).length = 13) := by
  refine ⟨pictureText c n, dieFace c, render_eq c n (by omega), ?_, ?_⟩
  · intro i hi
    exact READ_DIE_eq c i (by omega)
  · intro r h1 h6
    rw [pictureText_group_line c n g r hg h1 h6]
    refine ⟨rowText_length _ (lineSeg_regular r) c _ _, ?_⟩
    intro k hk
    exact ⟨rowText_block _ (lineSeg_regular r) c _ _ k hk,
      (lineSeg_regular r _ (dieFace_pos c _) (dieFace_le c _)).1⟩

/-- C13 at the cup `17554` with seven dice and the second row-group. -/
theorem columns_aligned_witness :
    ∃ (txt : List Char) (face : Nat → Nat), render 17554 ((7 : Nat) : Int) = some txt ∧
      (∀ i : Nat, i < 7 → READ_DIE 17554 (i : Int) = some ((face i : Nat) : Int)) ∧
      (∀ r : Nat, 1 ≤ r → r ≤ 6 →
        ((textLines txt).getD (8 * 1 + r) []).length = 13 * min 5 (7 - 5 * 1) ∧
        ∀ k : Nat, k < min 5 (7 - 5 * 1) →
          (((textLines txt).getD (8 * 1 + r) []).drop (13 * k)).take 13 =
            lineSeg r (face (5 * 1 + k) : Nat) ∧
          (lineSeg r (face (5 * 1 + k) : Nat)).length = 13) :=
  columns_aligned 17554 7 1 (by decide) (by decide) (by decide) (by decide)

/-- C14. For every 64-bit cup `c`, whatever its bit pattern, `answer(c, 0)`
returns 0: the loop body is never entered and no die is read. -/
theorem answer_zero_dice (c : Nat) (_hc : c < 2 ^ 64) : answer c 0 = some 0 := by
  unfold answer
  rw [answerLoop, if_neg (by decide)]

/-- C14 at the all-ones cup. -/
theorem answer_zero_dice_witness : answer (2 ^ 64 - 1) 0 = some 0 :=
  answer_zero_dice (2 ^ 64 - 1) (by decide)

/-- C15, as stated, fails: the program has no `InvalidInput`.  With 22 dice,
one more than the valid range, `answer` returns a score and `render` prints a
picture (of 1756 characters for the cup `0`). -/
theorem count_22_counterexample :
    answer 0 22 = some 0 ∧ render 0 22 = some (pictureText 0 22) ∧
      (pictureText 0 22).length = 1756 := by
  refine ⟨?_, ?_, pictureText_zero_22_length⟩
  · have h := answer_eq 0 22 (by decide)
    have hz : ∑ k ∈ Finset.range 22, petalsOf (dieFace 0 k) = 0 := by
      apply Finset.sum_eq_zero
      intro k _
      simp [dieFace, petalsOf]
    rw [hz] at h
    exact_mod_cast h
  · exact_mod_cast render_eq 0 22 (by decide)

/-- C15 (amended). No die count is surfaced as an error: `answer` and `render`
have no range check.  For every 64-bit cup, with 22 dice `answer` returns the
petal sum of the 22 faces read and `render` prints the picture of 22 dice; with
23 dice or more both read die 22, a shift of the cup by 66 bits, which is
undefined behaviour, so neither a score nor an error is specified. -/
theorem large_counts_not_rejected (c : Nat) (_hc : c < 2 ^ 64) :
    answer c 22 = some ((∑ k ∈ Finset.range 22, petalsOf (dieFace c k) : Nat) : Int) ∧
    render c 22 = some (pictureText c 22) ∧
    (∀ n : Int, 23 ≤ n → answer c n = none ∧ render c n = none) := by
  refine ⟨?_, ?_, ?_⟩
  · exact_mod_cast answer_eq c 22 (by decide)
  · exact_mod_cast render_eq c 22 (by decide)
  · intro n hn
    constructor
    · exact_mod_cast answerLoop_undefined c n hn 22 0 0 (by decide) (by decide)
    · exact_mod_cast renderLoop_undefined c n hn 4 0 [] (by decide)

/-- C15 (amended) at the cup `2048`. -/
theorem large_counts_not_rejected_witness :
    answer 2048 22 = some ((∑ k ∈ Finset.range 22, petalsOf (dieFace 2048 k) : Nat) : Int) ∧
    render 2048 22 = some (pictureText 2048 22) ∧
    (∀ n : Int, 23 ≤ n → answer 2048 n = none ∧ render 2048 n = none) :=
  large_counts_not_rejected 2048 (by decide)

/-- C16. For every 64-bit cup `c` and die count `n ≤ 21`, `answer(c, n)` returns
twice the number of positions `i < n` where `READ_DIE(c, i)` is 3 plus four times
the number of positions where it is 5. -/
theorem answer_counts_threes_fives (c n : Nat) (_hc : c < 2 ^ 64) (hn : n ≤ 21) :
    answer c (n : Int) = some ((
      2 * ((Finset.range n).filter (fun i : Nat => READ_DIE c (i : Int) = some 3)).card +
      4 * ((Finset.range n).filter (fun i : Nat => READ_DIE c (i : Int) = some 5)).card : Nat) : Int) := by
  rw [answer_eq c n (by omega), sum_petals_count]
  have hread : ∀ (v : Nat), (Finset.range n).filter (fun i : Nat => READ_DIE c (i : Int) = some (v : Int)) =
      (Finset.range n).filter (fun k => dieFace c k = v) := by
    intro v
    apply Finset.filter_congr
    intro i hi
    rw [Finset.mem_range] at hi
    rw [READ_DIE_eq c i (by omega)]
    constructor
    · intro h
      exact_mod_cast Option.some.inj h
    · intro h
      rw [h]
  have h3 := hread 3
  have h5 := hread 5
  simp only [Nat.cast_ofNat] at h3 h5
  rw [h3, h5]

/-- C16 at the cup `2048` (read as the faces 3, 5, 3, 5, 1) with five dice. -/
theorem answer_counts_threes_fives_witness :
    answer 2048 ((5 : Nat) : Int) = some ((
      2 * ((Finset.range 5).filter (fun i : Nat => READ_DIE 2048 (i : Int) = some 3)).card +
      4 * ((Finset.range 5).filter (fun i : Nat => READ_DIE 2048 (i : Int) = some 5)).card : Nat) : Int) :=
  answer_counts_threes_fives 2048 5 (by decide) (by decide)

/-- C17. For every die face `d` in `[1,6]`, the three pip lines `render` draws
for a die showing `d` hold exactly `d` characters `*`; in the picture of up to
21 dice, the columns of a die reading `d` hold `d` pips on the three pip lines
and the digit of `d` on the value line beneath. -/
theorem pips_equal_face (d : Nat) (h1 : 1 ≤ d) (h6 : d ≤ 6) :
    (pipSeg1 (d : Int)).count '*' + (pipSeg2 (d : Int)).count '*' +
      (pipSeg3 (d : Int)).count '*' = d ∧
    (∀ c n k : Nat, c < 2 ^ 64 → n ≤ 21 → k < n → READ_DIE c (k : Int) = some (d : Int) →
      ∃ txt, render c (n : Int) = some txt ∧
        ((((textLines txt).getD (8 * (k / 5) + 2) []).drop (13 * (k % 5))).take 13).count '*' +
        ((((textLines txt).getD (8 * (k / 5) + 3) []).drop (13 * (k % 5))).take 13).count '*' +
        ((((textLines txt).getD (8 * (k / 5) + 4) []).drop (13 * (k % 5))).take 13).count '*' = d ∧
        charAt txt (8 * (k / 5) + 6) (13 * (k % 5) + 4) = Nat.digitChar d) := by
  refine ⟨pipSeg_star_count d h1 h6, ?_⟩
  intro c n k _ hn hk hd
  rw [READ_DIE_eq c k (by omega)] at hd
  have hface : dieFace c k = d := by
    have := Option.some.inj hd
    exact_mod_cast this
  refine ⟨pictureText c n, render_eq c n (by omega), ?_, ?_⟩
  · rw [pictureText_die_block c n k 2 hk (by decide) (by decide),
      pictureText_die_block c n k 3 hk (by decide) (by decide),
      pictureText_die_block c n k 4 hk (by decide) (by decide), hface]
    exact pipSeg_star_count d h1 h6
  · unfold charAt
    rw [pictureText_group_line c n (k / 5) 6 (by omega) (by decide) (by decide),
      rowText_getD _ (lineSeg_regular 6) c _ _ (k % 5) 4 (by omega) (by decide),
      Nat.div_add_mod, hface]
    show (valueSeg (d : Nat)).getD 4 ' ' = _
    rw [valueSeg_digit d h1 h6]
    rfl

/-- C17 at the face 6. -/
theorem pips_equal_face_witness :
    (pipSeg1 ((6 : Nat) : Int)).count '*' + (pipSeg2 ((6 : Nat) : Int)).count '*' +
      (pipSeg3 ((6 : Nat) : Int)).count '*' = 6 ∧
    (∀ c n k : Nat, c < 2 ^ 64 → n ≤ 21 → k < n →
      READ_DIE c (k : Int) = some ((6 : Nat) : Int) →
      ∃ txt, render c (n : Int) = some txt ∧
        ((((textLines txt).getD (8 * (k / 5) + 2) []).drop (13 * (k % 5))).take 13).count '*' +
        ((((textLines txt).getD (8 * (k / 5) + 3) []).drop (13 * (k % 5))).take 13).count '*' +
        ((((textLines txt).getD (8 * (k / 5) + 4) []).drop (13 * (k % 5))).take 13).count '*' = 6 ∧
        charAt txt (8 * (k / 5) + 6) (13 * (k % 5) + 4) = Nat.digitChar 6) :=
  pips_equal_face 6 (by decide) (by decide)

/-- C18. Every roll of the game is reachable from a single random draw: for
every sequence of 5 faces, each in `[1,6]`, there is a cup `c` below `2 ^ 15`
(so at most 32767, the least `RAND_MAX` the C standard allows) from which
`READ_DIE(c, i)` reads the `i`-th face for every `i < 5`. -/
theorem every_roll_reachable (F : List Nat) (hlen : F.length = 5)
    (hF : ∀ f ∈ F, 1 ≤ f ∧ f ≤ 6) :
    ∃ c : Nat, c < 2 ^ 15 ∧ c ≤ 32767 ∧
      ∀ (i : Nat) (hi : i < F.length), READ_DIE c (i : Int) = some ((F[i] : Nat) : Int) := by
  have hlt := cupReading_lt F
  rw [hlen] at hlt
  refine ⟨cupReading F, hlt, by omega, ?_⟩
  intro i hi
  rw [READ_DIE_eq _ i (by omega), dieFace_cupReading F hF i hi]

/-- C18 at the faces 3, 5, 3, 5, 1. -/
theorem every_roll_reachable_witness :
    ∃ c : Nat, c < 2 ^ 15 ∧ c ≤ 32767 ∧
      ∀ (i : Nat) (hi : i < ([3, 5, 3, 5, 1] : List Nat).length),
        READ_DIE c (i : Int) = some ((([3, 5, 3, 5, 1] : List Nat)[i] : Nat) : Int) :=
  every_roll_reachable [3, 5, 3, 5, 1] (by decide) (by decide)

/-- C19. For every 64-bit cup `c` and die count `n ≤ 21`, `answer(c, n)` returns
an even number between 0 and `4n` (at most 20 for the five dice of the game);
the running sum after any `k ≤ n` dice lies between 0 and `4k`, inside the range
of `int`, so no addition overflows. -/
theorem answer_even_bounded (c n : Nat) (_hc : c < 2 ^ 64) (hn : n ≤ 21) :
    (∃ s : Int, answer c (n : Int) = some s ∧ s % 2 = 0 ∧ 0 ≤ s ∧ s ≤ 4 * (n : Int) ∧
      (n = 5 → s ≤ 20)) ∧
    (∀ k : Nat, k ≤ n → ∃ sk : Int, answerLoop c (n : Int) 0 0 = answerLoop c (n : Int) (k : Int) sk ∧
      0 ≤ sk ∧ sk ≤ 4 * (k : Int) ∧ INT_MIN ≤ sk ∧ sk ≤ INT_MAX) := by
  have hle := sum_petals_le c n
  have hev := sum_petals_even c n
  constructor
  · refine ⟨_, answer_eq c n (by omega), ?_, ?_, ?_, ?_⟩
    · omega
    · omega
    · omega
    · intro h5
      omega
  · intro k hk
    refine ⟨((∑ i ∈ Finset.range k, petalsOf (dieFace c i) : Nat) : Int), ?_, ?_, ?_, ?_, ?_⟩
    · have h0 := answerLoop_eq c n 0 0 (by omega) (by omega)
      have hk2 := answerLoop_eq c (n - k) k (∑ i ∈ Finset.range k, petalsOf (dieFace c i))
        (by omega) (sum_petals_le c k)
      have e1 : ((0 + n : Nat) : Int) = (n : Int) := by omega
      have e2 : ((k + (n - k) : Nat) : Int) = (n : Int) := by omega
      rw [e1] at h0
      rw [e2] at hk2
      rw [Nat.cast_zero] at h0
      rw [h0, hk2]
      have hsplit : ∑ i ∈ Finset.range n, petalsOf (dieFace c i) =
          ∑ i ∈ Finset.range k, petalsOf (dieFace c i) +
            ∑ i ∈ Finset.range (n - k), petalsOf (dieFace c (k + i)) := by
        have := Finset.sum_range_add (fun i => petalsOf (dieFace c i)) k (n - k)
        rw [show k + (n - k) = n by omega] at this
        exact this
      simp only [Nat.zero_add]
      rw [hsplit]
    · omega
    · have := sum_petals_le c k
      omega
    · simp only [INT_MIN]
      omega
    · have := sum_petals_le c k
      simp only [INT_MAX]
      omega

/-- C19 at the cup `17554` (read as five fives) with five dice. -/
theorem answer_even_bounded_witness :
    (∃ s : Int, answer 17554 ((5 : Nat) : Int) = some s ∧ s % 2 = 0 ∧ 0 ≤ s ∧
      s ≤ 4 * ((5 : Nat) : Int) ∧ ((5 : Nat) = 5 → s ≤ 20)) ∧
    (∀ k : Nat, k ≤ 5 → ∃ sk : Int,
      answerLoop 17554 ((5 : Nat) : Int) 0 0 = answerLoop 17554 ((5 : Nat) : Int) (k : Int) sk ∧
      0 ≤ sk ∧ sk ≤ 4 * (k : Int) ∧ INT_MIN ≤ sk ∧ sk ≤ INT_MAX) :=
  answer_even_bounded 17554 5 (by decide) (by decide)

/-- C20. With standard input a finite character sequence, `main` terminates and
returns `EXIT_SUCCESS` on every input, and it always plays a first round.  At the
head of the loop with `q == ROLL`, a round is played and a character is read in
reply to "Play again? y/n: ": when it is exactly `y` the loop goes on with
another round, and on any other character or at the end of the input `main`
returns `EXIT_SUCCESS`.  Counted on the input: after the first line, the lines
come in pairs (the wait for the answer, the reply), and the rounds played are
one more than the leading replies that start with `y`. -/
theorem main_plays_while_y (rnd : Nat → Nat) (input : List Char) :
    (∃ w, main rnd input = some (EXIT_SUCCESS, w) ∧ 1 ≤ w.rands ∧
      w.rands = 1 + extraRounds ((textLines input).drop 1)) ∧
    (∀ w : World, w.Consistent → ∃ w1, play_petals rnd w = some w1 ∧
      w1.rands = w.rands + 1 ∧
      ((fgetc { w1 with out := w1.out ++ "Play again? y/n: ".toList }).1 = some 'y' →
        mainLoop rnd (some ROLL) w = mainLoop rnd (some ROLL)
          (skipLine (fgetc { w1 with out := w1.out ++ "Play again? y/n: ".toList }).2)) ∧
      ((fgetc { w1 with out := w1.out ++ "Play again? y/n: ".toList }).1 ≠ some 'y' →
        mainLoop rnd (some ROLL) w = some (EXIT_SUCCESS,
          skipLine (fgetc { w1 with out := w1.out ++ "Play again? y/n: ".toList }).2))) := by
  constructor
  · obtain ⟨w, hw, hr⟩ := main_rounds rnd input
    exact ⟨w, hw, by omega, hr⟩
  · intro w hw
    obtain ⟨w1, hplay, _, _, hr⟩ := play_petals_spec rnd w hw
    refine ⟨w1, hplay, hr, ?_, ?_⟩
    · intro hy
      rw [mainLoop_step rnd w w1 hplay, hy]
      rfl
    · intro hy
      rw [mainLoop_step rnd w w1 hplay]
      exact mainLoop_exit rnd _ _ hy

/-- C20 on four inputs, with `rand()` returning 2048 each time: a reply `y` and
then `Y` give two rounds; a bare newline as reply, the reply `Y`, and an empty
input give one round. -/
theorem main_plays_while_y_witness :
    (∃ w, main (fun _ => 2048) "\n\ny\n\nY\n".toList = some (EXIT_SUCCESS, w) ∧ w.rands = 2) ∧
    (∃ w, main (fun _ => 2048) "\n\n\n".toList = some (EXIT_SUCCESS, w) ∧ w.rands = 1) ∧
    (∃ w, main (fun _ => 2048) "\n\nY\n".toList = some (EXIT_SUCCESS, w) ∧ w.rands = 1) ∧
    (∃ w, main (fun _ => 2048) [] = some (EXIT_SUCCESS, w) ∧ w.rands = 1) := by
  refine ⟨?_, ?_, ?_, ?_⟩
  · obtain ⟨w, hw, _, hr⟩ := (main_plays_while_y (fun _ => 2048) "\n\ny\n\nY\n".toList).1
    exact ⟨w, hw, by rw [hr]; decide⟩
  · obtain ⟨w, hw, _, hr⟩ := (main_plays_while_y (fun _ => 2048) "\n\n\n".toList).1
    exact ⟨w, hw, by rw [hr]; decide⟩
  · obtain ⟨w, hw, _, hr⟩ := (main_plays_while_y (fun _ => 2048) "\n\nY\n".toList).1
    exact ⟨w, hw, by rw [hr]; decide⟩
  · obtain ⟨w, hw, _, hr⟩ := (main_plays_while_y (fun _ => 2048) []).1
    exact ⟨w, hw, by rw [hr]; decide⟩

end Petals
